import Mathlib

/-!
Verification of the moonfire-nvr core against its specification.

The C++ sources are shallowly embedded: machine integers become `Nat`/`Int`
with explicit reductions modulo 2^w where the C code performs unsigned
arithmetic, byte buffers become `List Nat` (each element a byte value),
and fallible operations return `Except String`.  Every definition follows
the corresponding C++ function; file and line references are given in the
doc comments.
-/

namespace MoonfireNvr

/-! ### Bitwise helper lemmas -/

/-- XOR with an all-ones mask is complement below the width. -/
theorem xor_two_pow_sub_one {k n : Nat} (h : n < 2 ^ k) :
    n ^^^ (2 ^ k - 1) = 2 ^ k - 1 - n := by
  induction k generalizing n with
  | zero =>
    interval_cases n
    rfl
  | succ k ih =>
    have hdiv : n / 2 < 2 ^ k := by
      have h2 : 2 ^ (k + 1) = 2 * 2 ^ k := by ring
      omega
    have hrec := ih hdiv
    have hd2 : (2 ^ (k + 1) - 1) / 2 = 2 ^ k - 1 := by
      have h2 : 2 ^ (k + 1) = 2 * 2 ^ k := by ring
      omega
    have hx2 : (n ^^^ (2 ^ (k + 1) - 1)) / 2 = n / 2 ^^^ (2 ^ (k + 1) - 1) / 2 :=
      Nat.xor_div_two
    rw [hd2, hrec] at hx2
    have hm1 : (2 ^ (k + 1) - 1) % 2 = 1 := by
      have h2 : 2 ^ (k + 1) = 2 * 2 ^ k := by ring
      have hp : 0 < 2 ^ k := Nat.pos_pow_of_pos k (by norm_num)
      omega
    have hmod : (n ^^^ (2 ^ (k + 1) - 1)) % 2 = 1 - n % 2 := by
      rcases Nat.mod_two_eq_zero_or_one n with hn | hn
      · have : (n ^^^ (2 ^ (k + 1) - 1)) % 2 = 1 := by
          rw [Nat.xor_mod_two_eq_one]
          omega
        omega
      · have hne : ¬ (n ^^^ (2 ^ (k + 1) - 1)) % 2 = 1 := by
          rw [Nat.xor_mod_two_eq_one]
          push_neg
          constructor <;> omega
        omega
    have hsplit := Nat.div_add_mod (n ^^^ (2 ^ (k + 1) - 1)) 2
    have hnsplit := Nat.div_add_mod n 2
    have h2 : 2 ^ (k + 1) = 2 * 2 ^ k := by ring
    have hp : 0 < 2 ^ k := Nat.pos_pow_of_pos k (by norm_num)
    have hnm : n % 2 < 2 := Nat.mod_lt n (by norm_num)
    omega

/-- Adding a value below `2 ^ k` to a left shift by `k` is a disjoint OR. -/
theorem or_shiftLeft_eq_add {a b k : Nat} (h : a < 2 ^ k) :
    a ||| b <<< k = a + b * 2 ^ k := by
  have h1 : b <<< k = 2 ^ k * b := by
    rw [Nat.shiftLeft_eq]
    ring
  have h2 := Nat.mul_add_lt_is_or (i := k) h b
  rw [h1, Nat.lor_comm]
  omega

/-! ### coding.h: zigzag encoding (src/coding.h lines 126-135) -/

/-- C++ `Zigzag32`: `static_cast<uint32_t>(in << 1) ^ (in >> 31)` on an
`int32_t` input.  The left shift is taken modulo 2^32 and the arithmetic
right shift by 31 yields the all-ones mask exactly for negative inputs. -/
def Zigzag32 (i : Int) : Nat :=
  (((2 * i) % 4294967296).toNat) ^^^ (if i < 0 then 4294967295 else 0)

/-- Interpret the low 32 bits of a `Nat` as a two's complement `int32_t`. -/
def toInt32 (n : Nat) : Int :=
  if n % 4294967296 < 2147483648 then ((n % 4294967296 : Nat) : Int)
  else ((n % 4294967296 : Nat) : Int) - 4294967296

/-- C++ `Unzigzag32`: `(in >> 1) ^ -static_cast<int32_t>(in & 1)` on a
`uint32_t` input, result reinterpreted as `int32_t`. -/
def Unzigzag32 (u : Nat) : Int :=
  toInt32 ((u >>> 1) ^^^ (if u &&& 1 == 1 then 4294967295 else 0))

theorem zigzag32_nonneg {i : Int} (h0 : 0 ≤ i) (h : i < 2147483648) :
    Zigzag32 i = (2 * i).toNat := by
  unfold Zigzag32
  have hlt : 2 * i < 4294967296 := by omega
  have hmod : (2 * i) % 4294967296 = 2 * i := Int.emod_eq_of_lt (by omega) hlt
  rw [hmod, if_neg (by omega)]
  simp

theorem zigzag32_neg {i : Int} (h0 : i < 0) (h : -2147483648 ≤ i) :
    Zigzag32 i = 2 * (-i).toNat - 1 := by
  unfold Zigzag32
  rw [if_pos h0]
  have hmod : (2 * i) % 4294967296 = 2 * i + 4294967296 := by
    have : (2 * i) % 4294967296 = (2 * i + 4294967296) % 4294967296 := by
      omega
    rw [this]
    exact Int.emod_eq_of_lt (by omega) (by omega)
  rw [hmod]
  have hval : (2 * i + 4294967296).toNat = 4294967296 - 2 * (-i).toNat := by omega
  rw [hval]
  have hlt : 4294967296 - 2 * (-i).toNat < 2 ^ 32 := by omega
  have := xor_two_pow_sub_one (k := 32) (n := 4294967296 - 2 * (-i).toNat) (by norm_num at hlt ⊢; omega)
  norm_num at this
  rw [this]
  omega

theorem zigzag32_lt {i : Int} (h0 : -2147483648 ≤ i) (h : i < 2147483648) :
    Zigzag32 i < 4294967296 := by
  rcases le_or_lt 0 i with hge | hlt
  · rw [zigzag32_nonneg hge h]; omega
  · rw [zigzag32_neg hlt h0]; omega

theorem unzigzag32_zigzag32 {i : Int} (h0 : -2147483648 ≤ i) (h : i < 2147483648) :
    Unzigzag32 (Zigzag32 i) = i := by
  rcases le_or_lt 0 i with hge | hlt
  · rw [zigzag32_nonneg hge h]
    unfold Unzigzag32 toInt32
    have h1 : (2 * i).toNat &&& 1 = 0 := by
      rw [Nat.and_one_is_mod]
      omega
    have h2 : (2 * i).toNat >>> 1 = i.toNat := by
      rw [Nat.shiftRight_succ, Nat.shiftRight_zero]
      omega
    rw [h1]
    norm_num [h2]
    omega
  · rw [zigzag32_neg hlt h0]
    unfold Unzigzag32 toInt32
    have h1 : (2 * (-i).toNat - 1) &&& 1 = 1 := by
      rw [Nat.and_one_is_mod]
      omega
    have h2 : (2 * (-i).toNat - 1) >>> 1 = (-i).toNat - 1 := by
      rw [Nat.shiftRight_succ, Nat.shiftRight_zero]
      omega
    rw [h1, h2]
    norm_num
    have h3 : (-i).toNat - 1 < 2 ^ 32 := by omega
    have := xor_two_pow_sub_one (k := 32) h3
    norm_num at this
    rw [this]
    omega

/-! ### coding.cc / coding.h: varint encode and decode -/

/-- C++ `internal::AppendVar32Slow` (src/coding.cc lines 40-50).  The C loop
iterates at most five times for a `uint32_t`; `fuel` bounds the recursion and
is always instantiated large enough for 32-bit inputs. -/
def AppendVar32Slow (fuel : Nat) (v : Nat) (out : List Nat) : List Nat :=
  match fuel with
  | 0 => out
  | fuel + 1 =>
    let nextByte := v &&& 0x7f
    let v2 := v >>> 7
    if v2 = 0 then out ++ [nextByte]
    else AppendVar32Slow fuel v2 (out ++ [nextByte ||| 0x80])

/-- C++ `AppendVar32` (src/coding.h lines 100-106). -/
def AppendVar32 (v : Nat) (out : List Nat) : List Nat :=
  if v < 128 then out ++ [v] else AppendVar32Slow 6 v out

/-- The state `(v, size, left)` reached by the slowest path of
`internal::DecodeVar32Slow` just before its final buffer-underrun check
(src/coding.cc lines 85-97). -/
def DecodeVar32SlowTail (l : List Nat) : Nat × Nat × Nat :=
  let left := l.length - 1
  let p := fun i => l.getD i 0
  let v0 := (p 0) &&& 0x7f
  if 1 ≤ left then
    let v1 := v0 ||| ((p 1 &&& 0x7f) <<< 7)
    if (p 1) &&& 0x80 ≠ 0 then
      let left1 := left - 1
      if 0 < left1 then
        let v2 := v1 ||| ((p 2 &&& 0x7f) <<< 14)
        if (p 2) &&& 0x80 ≠ 0 then
          let left2 := left1 - 1
          if 0 < left2 then
            let v3 := v2 ||| ((p 3 &&& 0x7f) <<< 21)
            if (p 3) &&& 0x80 ≠ 0 then (v3, 4, left2 - 1)
            else (v3, 4, left2)
          else (v2, 3, left2)
        else (v2, 3, left1)
      else (v1, 2, left1)
    else (v1, 2, left)
  else (v0, 1, left)

/-- C++ `internal::DecodeVar32Slow` (src/coding.cc lines 52-105).  Returns the
decoded value together with the number of bytes consumed; `p i` reads byte `i`
of the input (the C code never reads out of bounds on the paths taken, so a
default of 0 is immaterial). -/
def DecodeVar32Slow (l : List Nat) : Except String (Nat × Nat) :=
  let left := l.length - 1
  let p := fun i => l.getD i 0
  let v0 := (p 0) &&& 0x7f
  if 4 ≤ left ∨ (p left) &&& 0x80 = 0 then
    -- faster unrolled path
    let v1 := v0 ||| ((p 1 &&& 0x7f) <<< 7)
    if (p 1) &&& 0x80 ≠ 0 then
      let v2 := v1 ||| ((p 2 &&& 0x7f) <<< 14)
      if (p 2) &&& 0x80 ≠ 0 then
        let v3 := v2 ||| ((p 3 &&& 0x7f) <<< 21)
        if (p 3) &&& 0x80 ≠ 0 then
          if (p 4) &&& 0xf0 ≠ 0 then .error "integer overflow"
          else .ok (v3 ||| ((p 4 &&& 0x7f) <<< 28), 5)
        else .ok (v3, 4)
      else .ok (v2, 3)
    else .ok (v1, 2)
  else
    -- slowest path: fewer than five bytes and the final byte is continued
    let st := DecodeVar32SlowTail l
    if st.2.2 = 0 ∧ (p (st.2.1 - 1)) &&& 0x80 ≠ 0 then .error "buffer underrun"
    else .ok (st.1, st.2.1)

/-- C++ `DecodeVar32` (src/coding.h lines 110-124), with the in/out
`StringPiece` made explicit: the second component is the state of the input
after the call.  On failure the input is left unchanged, exactly as the C
code only calls `remove_prefix` on success. -/
def DecodeVar32 (l : List Nat) : Except String Nat × List Nat :=
  match l with
  | [] => (.error "buffer underrun", l)
  | b :: rest =>
    if b < 0x80 then (.ok b, rest)
    else
      match DecodeVar32Slow l with
      | .error e => (.error e, l)
      | .ok (v, size) => (.ok v, l.drop size)

/-! ### Arithmetic forms of the byte manipulations -/

theorem and_127_eq_mod (x : Nat) : x &&& 127 = x % 128 := by
  have h : (127 : Nat) = 2 ^ 7 - 1 := by norm_num
  rw [h, Nat.and_pow_two_sub_one_eq_mod]

theorem and_128_eq (x : Nat) : x &&& 128 = x / 128 % 2 * 128 := by
  have h : (128 : Nat) = 2 ^ 7 := by norm_num
  rw [h, Nat.and_two_pow, Nat.testBit_to_div_mod]
  have h7 : x / 2 ^ 7 = x / 128 := by norm_num
  rw [h7]
  rcases Nat.mod_two_eq_zero_or_one (x / 128) with h2 | h2 <;> simp [h2]

theorem and_240_eq_zero {x : Nat} (h : x < 16) : x &&& 240 = 0 := by
  apply Nat.eq_of_testBit_eq
  intro i
  rw [Nat.testBit_and]
  rcases lt_or_ge i 4 with hi | hi
  · have h240 : (240 : Nat) = 2 ^ 4 * 15 := by norm_num
    have hb : Nat.testBit 240 i = false := by
      rw [h240, Nat.testBit_mul_pow_two]
      simp
      omega
    simp [hb]
  · have hb : Nat.testBit x i = false := by
      apply Nat.testBit_lt_two_pow
      calc x < 16 := h
        _ = 2 ^ 4 := by norm_num
        _ ≤ 2 ^ i := Nat.pow_le_pow_right (by norm_num) hi
    simp [hb]

theorem or_128_eq_add {x : Nat} (h : x < 128) : x ||| 128 = x + 128 := by
  have h1 : (128 : Nat) = 1 <<< 7 := by norm_num [Nat.shiftLeft_eq]
  rw [h1, or_shiftLeft_eq_add (k := 7) (by norm_num at h ⊢; omega)]
  norm_num [Nat.shiftLeft_eq]

theorem or_mod_128 (x : Nat) : x % 128 ||| 128 = x % 128 + 128 :=
  or_128_eq_add (Nat.mod_lt _ (by norm_num))

theorem shiftRight_eq_div (x n : Nat) : x >>> n = x / 2 ^ n :=
  Nat.shiftRight_eq_div_pow x n

theorem shr7 (x : Nat) : x >>> 7 = x / 128 := by
  rw [shiftRight_eq_div]
  norm_num

/-! ### AppendVar32 output in closed form, by byte count -/

theorem appendVar32_one {v : Nat} (h : v < 128) : AppendVar32 v [] = [v] := by
  simp [AppendVar32, h]

theorem appendVar32_two {v : Nat} (h1 : 128 ≤ v) (h2 : v < 16384) :
    AppendVar32 v [] = [v % 128 + 128, v / 128] := by
  unfold AppendVar32
  rw [if_neg (by omega)]
  simp only [AppendVar32Slow, shr7, Nat.div_div_eq_div_mul]
  norm_num
  rw [if_neg (show ¬ v / 128 = 0 by omega), if_pos (show v / 16384 = 0 by omega)]
  simp only [and_127_eq_mod, or_mod_128]
  simp
  omega

theorem appendVar32_three {v : Nat} (h1 : 16384 ≤ v) (h2 : v < 2097152) :
    AppendVar32 v [] = [v % 128 + 128, v / 128 % 128 + 128, v / 16384] := by
  unfold AppendVar32
  rw [if_neg (by omega)]
  simp only [AppendVar32Slow, shr7, Nat.div_div_eq_div_mul]
  norm_num
  rw [if_neg (show ¬ v / 128 = 0 by omega), if_neg (show ¬ v / 16384 = 0 by omega),
    if_pos (show v / 2097152 = 0 by omega)]
  simp only [and_127_eq_mod, or_mod_128]
  simp
  omega

theorem appendVar32_four {v : Nat} (h1 : 2097152 ≤ v) (h2 : v < 268435456) :
    AppendVar32 v [] =
      [v % 128 + 128, v / 128 % 128 + 128, v / 16384 % 128 + 128, v / 2097152] := by
  unfold AppendVar32
  rw [if_neg (by omega)]
  simp only [AppendVar32Slow, shr7, Nat.div_div_eq_div_mul]
  norm_num
  rw [if_neg (show ¬ v / 128 = 0 by omega), if_neg (show ¬ v / 16384 = 0 by omega),
    if_neg (show ¬ v / 2097152 = 0 by omega),
    if_pos (show v / 268435456 = 0 by omega)]
  simp only [and_127_eq_mod, or_mod_128]
  simp
  omega

theorem appendVar32_five {v : Nat} (h1 : 268435456 ≤ v) (h2 : v < 4294967296) :
    AppendVar32 v [] =
      [v % 128 + 128, v / 128 % 128 + 128, v / 16384 % 128 + 128,
       v / 2097152 % 128 + 128, v / 268435456] := by
  unfold AppendVar32
  rw [if_neg (by omega)]
  simp only [AppendVar32Slow, shr7, Nat.div_div_eq_div_mul]
  norm_num
  rw [if_neg (show ¬ v / 128 = 0 by omega), if_neg (show ¬ v / 16384 = 0 by omega),
    if_neg (show ¬ v / 2097152 = 0 by omega),
    if_neg (show ¬ v / 268435456 = 0 by omega),
    if_pos (show v / 34359738368 = 0 by omega)]
  simp only [and_127_eq_mod, or_mod_128]
  simp
  omega

/-! ### DecodeVar32 inverts AppendVar32 -/

theorem decodeVar32Slow_two {v : Nat} (h1 : 128 ≤ v) (h2 : v < 16384)
    (rest : List Nat) :
    DecodeVar32Slow ((v % 128 + 128) :: (v / 128) :: rest) = .ok (v, 2) := by
  have hb1 : v / 128 < 128 := by omega
  have hcont1 : v / 128 &&& 128 = 0 := by
    rw [and_128_eq]
    omega
  have hv1 : (v % 128 + 128) &&& 127 ||| ((v / 128 &&& 127) <<< 7) = v := by
    rw [and_127_eq_mod, and_127_eq_mod,
      or_shiftLeft_eq_add (k := 7) (by norm_num; omega)]
    norm_num
    omega
  simp only [DecodeVar32Slow, List.getD_cons_zero, List.getD_cons_succ,
    List.length_cons]
  by_cases hbr : 4 ≤ rest.length + 1 + 1 - 1 ∨
      ((v % 128 + 128) :: (v / 128) :: rest).getD (rest.length + 1 + 1 - 1) 0 &&& 128 = 0
  · rw [if_pos hbr, if_neg (by simp [hcont1]), hv1]
  · have hst : DecodeVar32SlowTail ((v % 128 + 128) :: (v / 128) :: rest) =
        (v, 2, rest.length + 1) := by
      simp only [DecodeVar32SlowTail, List.getD_cons_zero, List.getD_cons_succ,
        List.length_cons]
      rw [if_pos (by omega), if_neg (by simp [hcont1]), hv1]
      simp
    rw [if_neg hbr, hst]
    simp

theorem decodeVar32Slow_three {v : Nat} (h1 : 16384 ≤ v) (h2 : v < 2097152)
    (rest : List Nat) :
    DecodeVar32Slow ((v % 128 + 128) :: (v / 128 % 128 + 128) :: (v / 16384) :: rest) =
      .ok (v, 3) := by
  have hb2 : v / 16384 < 128 := by omega
  have hcont1 : (v / 128 % 128 + 128) &&& 128 ≠ 0 := by
    rw [and_128_eq]
    omega
  have hcont2 : v / 16384 &&& 128 = 0 := by
    rw [and_128_eq]
    omega
  have hv2 : (v % 128 + 128) &&& 127 ||| ((v / 128 % 128 + 128 &&& 127) <<< 7) |||
      ((v / 16384 &&& 127) <<< 14) = v := by
    rw [and_127_eq_mod, and_127_eq_mod, and_127_eq_mod,
      or_shiftLeft_eq_add (k := 7) (by norm_num; omega)]
    rw [or_shiftLeft_eq_add (k := 14) (by norm_num; omega)]
    norm_num
    omega
  simp only [DecodeVar32Slow, List.getD_cons_zero, List.getD_cons_succ,
    List.length_cons]
  by_cases hbr : 4 ≤ rest.length + 1 + 1 + 1 - 1 ∨
      ((v % 128 + 128) :: (v / 128 % 128 + 128) :: (v / 16384) :: rest).getD
        (rest.length + 1 + 1 + 1 - 1) 0 &&& 128 = 0
  · rw [if_pos hbr, if_pos hcont1, if_neg (by simp [hcont2]), hv2]
  · have hst : DecodeVar32SlowTail ((v % 128 + 128) :: (v / 128 % 128 + 128) ::
        (v / 16384) :: rest) = (v, 3, rest.length + 1) := by
      simp only [DecodeVar32SlowTail, List.getD_cons_zero, List.getD_cons_succ,
        List.length_cons]
      rw [if_pos (by omega), if_pos hcont1, if_pos (by omega),
        if_neg (by simp [hcont2]), hv2]
      simp
    rw [if_neg hbr, hst]
    simp

theorem decodeVar32Slow_four {v : Nat} (h1 : 2097152 ≤ v) (h2 : v < 268435456)
    (rest : List Nat) :
    DecodeVar32Slow ((v % 128 + 128) :: (v / 128 % 128 + 128) ::
      (v / 16384 % 128 + 128) :: (v / 2097152) :: rest) = .ok (v, 4) := by
  have hb3 : v / 2097152 < 128 := by omega
  have hcont1 : (v / 128 % 128 + 128) &&& 128 ≠ 0 := by
    rw [and_128_eq]
    omega
  have hcont2 : (v / 16384 % 128 + 128) &&& 128 ≠ 0 := by
    rw [and_128_eq]
    omega
  have hcont3 : v / 2097152 &&& 128 = 0 := by
    rw [and_128_eq]
    omega
  have hv3 : (v % 128 + 128) &&& 127 ||| ((v / 128 % 128 + 128 &&& 127) <<< 7) |||
      ((v / 16384 % 128 + 128 &&& 127) <<< 14) |||
      ((v / 2097152 &&& 127) <<< 21) = v := by
    rw [and_127_eq_mod, and_127_eq_mod, and_127_eq_mod, and_127_eq_mod,
      or_shiftLeft_eq_add (k := 7) (by norm_num; omega)]
    rw [or_shiftLeft_eq_add (k := 14) (by norm_num; omega)]
    rw [or_shiftLeft_eq_add (k := 21) (by norm_num; omega)]
    norm_num
    omega
  simp only [DecodeVar32Slow, List.getD_cons_zero, List.getD_cons_succ,
    List.length_cons]
  by_cases hbr : 4 ≤ rest.length + 1 + 1 + 1 + 1 - 1 ∨
      ((v % 128 + 128) :: (v / 128 % 128 + 128) :: (v / 16384 % 128 + 128) ::
        (v / 2097152) :: rest).getD (rest.length + 1 + 1 + 1 + 1 - 1) 0 &&& 128 = 0
  · rw [if_pos hbr, if_pos hcont1, if_pos hcont2, if_neg (by simp [hcont3]), hv3]
  · -- the slowest path is unreachable here: fewer than five bytes means the
    -- input is exactly the four encoded bytes, whose last byte is not continued
    exfalso
    push_neg at hbr
    obtain ⟨hlen, hlast⟩ := hbr
    have hrest : rest = [] := by
      have := List.length_eq_zero.mp (show rest.length = 0 by omega)
      exact this
    subst hrest
    simp at hlast
    exact hlast hcont3

theorem decodeVar32Slow_five {v : Nat} (h1 : 268435456 ≤ v) (h2 : v < 4294967296)
    (rest : List Nat) :
    DecodeVar32Slow ((v % 128 + 128) :: (v / 128 % 128 + 128) ::
      (v / 16384 % 128 + 128) :: (v / 2097152 % 128 + 128) ::
      (v / 268435456) :: rest) = .ok (v, 5) := by
  have hb4 : v / 268435456 < 16 := by omega
  have hcont1 : (v / 128 % 128 + 128) &&& 128 ≠ 0 := by
    rw [and_128_eq]
    omega
  have hcont2 : (v / 16384 % 128 + 128) &&& 128 ≠ 0 := by
    rw [and_128_eq]
    omega
  have hcont3 : (v / 2097152 % 128 + 128) &&& 128 ≠ 0 := by
    rw [and_128_eq]
    omega
  have hovf : v / 268435456 &&& 240 = 0 := and_240_eq_zero hb4
  have hv4 : (v % 128 + 128) &&& 127 ||| ((v / 128 % 128 + 128 &&& 127) <<< 7) |||
      ((v / 16384 % 128 + 128 &&& 127) <<< 14) |||
      ((v / 2097152 % 128 + 128 &&& 127) <<< 21) |||
      ((v / 268435456 &&& 127) <<< 28) = v := by
    rw [and_127_eq_mod, and_127_eq_mod, and_127_eq_mod, and_127_eq_mod,
      and_127_eq_mod, or_shiftLeft_eq_add (k := 7) (by norm_num; omega)]
    rw [or_shiftLeft_eq_add (k := 14) (by norm_num; omega)]
    rw [or_shiftLeft_eq_add (k := 21) (by norm_num; omega)]
    rw [or_shiftLeft_eq_add (k := 28) (by norm_num; omega)]
    norm_num
    omega
  simp only [DecodeVar32Slow, List.getD_cons_zero, List.getD_cons_succ,
    List.length_cons]
  rw [if_pos (Or.inl (by omega)), if_pos hcont1, if_pos hcont2, if_pos hcont3,
    if_neg (by simp [hovf]), hv4]

/-- Decoding after encoding recovers any 32-bit value, leaving the remainder
of the input untouched. -/
theorem decodeVar32_appendVar32 {v : Nat} (hv : v < 4294967296)
    (rest : List Nat) :
    DecodeVar32 (AppendVar32 v [] ++ rest) = (.ok v, rest) := by
  rcases lt_or_ge v 128 with c1 | c1
  · rw [appendVar32_one c1]
    simp [DecodeVar32, c1]
  rcases lt_or_ge v 16384 with c2 | c2
  · rw [appendVar32_two c1 c2]
    simp only [List.cons_append, List.nil_append, DecodeVar32]
    rw [if_neg (by omega), decodeVar32Slow_two c1 c2]
    simp
  rcases lt_or_ge v 2097152 with c3 | c3
  · rw [appendVar32_three c2 c3]
    simp only [List.cons_append, List.nil_append, DecodeVar32]
    rw [if_neg (by omega), decodeVar32Slow_three c2 c3]
    simp
  rcases lt_or_ge v 268435456 with c4 | c4
  · rw [appendVar32_four c3 c4]
    simp only [List.cons_append, List.nil_append, DecodeVar32]
    rw [if_neg (by omega), decodeVar32Slow_four c3 c4]
    simp
  · rw [appendVar32_five c4 hv]
    simp only [List.cons_append, List.nil_append, DecodeVar32]
    rw [if_neg (by omega), decodeVar32Slow_five c4 hv]
    simp

/-! ### recording.h / recording.cc: sample index iterator and encoder -/

/-- One video sample as fed to `SampleIndexEncoder::AddSample`. -/
structure Sample where
  duration90k : Int
  bytes : Int
  isKey : Bool
deriving DecidableEq, Repr

/-- State of C++ `SampleIndexIterator` (src/recording.h lines 109-161). -/
structure SampleIndexIterator where
  data : List Nat
  error : String
  pos : Int
  start90k : Int
  duration90k : Int
  bytesKey : Int
  bytesNonkey : Int
  isKey : Bool
  done : Bool
deriving DecidableEq, Repr

/-- C++ `SampleIndexIterator::bytes_internal` (src/recording.h lines 148-150). -/
def SampleIndexIterator.bytesInternal (it : SampleIndexIterator) : Int :=
  if it.isKey then it.bytesKey else it.bytesNonkey

/-- C++ `SampleIndexIterator::Clear` (src/recording.cc lines 123-133). -/
def SampleIndexIterator.clear : SampleIndexIterator :=
  { data := [], error := "", pos := 0, start90k := 0, duration90k := 0,
    bytesKey := 0, bytesNonkey := 0, isKey := false, done := true }

/-- C++ `SampleIndexIterator::Next` (src/recording.cc lines 81-121).  The
in-place `DecodeVar32` calls advance `data` only on success; all other
member mutations happen in the same order as in the source. -/
def SampleIndexIterator.next (it : SampleIndexIterator) : SampleIndexIterator :=
  let pos := it.pos + it.bytesInternal
  if it.data = [] then { it with pos := pos, done := true }
  else
    match DecodeVar32 it.data with
    | (.error e, d1) => { it with pos := pos, data := d1, error := e, done := true }
    | (.ok raw1, d1) =>
      match DecodeVar32 d1 with
      | (.error e, d2) => { it with pos := pos, data := d2, error := e, done := true }
      | (.ok raw2, d2) =>
        let start := it.start90k + it.duration90k
        let delta := Unzigzag32 (raw1 >>> 1)
        let duration := it.duration90k + delta
        if duration < 0 then
          { it with
            pos := pos
            data := d2
            start90k := start
            duration90k := duration
            error := "negative duration " ++ toString duration ++
              " after applying delta " ++ toString delta
            done := true }
        else if duration = 0 ∧ d2 ≠ [] then
          { it with
            pos := pos
            data := d2
            start90k := start
            duration90k := duration
            error := "zero duration only allowed at end; have " ++
              toString d2.length ++ "bytes left."
            done := true }
        else
          let isKey := raw1 &&& 1 = 1
          let bytesDelta := Unzigzag32 raw2
          let bytesKey := if isKey then it.bytesKey + bytesDelta else it.bytesKey
          let bytesNonkey :=
            if isKey then it.bytesNonkey else it.bytesNonkey + bytesDelta
          let bytesCur := if isKey then bytesKey else bytesNonkey
          if bytesCur ≤ 0 then
            { data := d2
              pos := pos
              start90k := start
              duration90k := duration
              bytesKey := bytesKey
              bytesNonkey := bytesNonkey
              isKey := isKey
              error := "non-positive bytes " ++ toString bytesCur ++
                " after applying delta " ++ toString bytesDelta ++ " to " ++
                (if isKey then "key" else "non-key") ++ " frame at ts " ++
                toString start
              done := true }
          else
            { data := d2
              pos := pos
              start90k := start
              duration90k := duration
              bytesKey := bytesKey
              bytesNonkey := bytesNonkey
              isKey := isKey
              error := it.error
              done := false }

/-- The `SampleIndexIterator(StringPiece)` constructor
(src/recording.h lines 114-118): clear, set the data, advance once. -/
def mkSampleIndexIterator (index : List Nat) : SampleIndexIterator :=
  SampleIndexIterator.next { SampleIndexIterator.clear with data := index }

/-- C++ `SampleIndexIterator::end_90k` (src/recording.h line 134). -/
def SampleIndexIterator.end90k (it : SampleIndexIterator) : Int :=
  it.start90k + it.duration90k

/-- C++ `SampleIndexIterator::has_error` (src/recording.h line 123). -/
def SampleIndexIterator.hasError (it : SampleIndexIterator) : Bool :=
  it.error ≠ ""

/-- Fields used by the recording rows throughout the code base
(src/moonfire-db.h `Recording`). -/
structure Recording where
  id : Int := -1
  cameraId : Int := -1
  sampleFileUuid : Nat := 0
  sampleFileSha1 : List Nat := []
  videoSampleEntryId : Int := -1
  startTime90k : Int := 0
  endTime90k : Int := 0
  localTime90k : Int := 0
  sampleFileBytes : Int := 0
  videoSamples : Int := 0
  videoSyncSamples : Int := 0
  videoIndex : List Nat := []
deriving DecidableEq, Repr

/-- Mutable state of C++ `SampleIndexEncoder` (src/recording.h lines 92-96). -/
structure SampleIndexEncoder where
  prevDuration90k : Int := 0
  prevBytesKey : Int := 0
  prevBytesNonkey : Int := 0
deriving DecidableEq, Repr

/-- C++ `SampleIndexEncoder::Init` (src/recording.cc lines 44-55). -/
def SampleIndexEncoder.init (r : Recording) (startTime90k : Int) :
    SampleIndexEncoder × Recording :=
  ({ prevDuration90k := 0, prevBytesKey := 0, prevBytesNonkey := 0 },
   { r with startTime90k := startTime90k, endTime90k := startTime90k,
            sampleFileBytes := 0, videoSamples := 0, videoSyncSamples := 0,
            videoIndex := [] })

/-- First varint value appended for a sample:
`(Zigzag32(duration_delta) << 1) | is_key`, in `uint32_t` arithmetic. -/
def encRaw1 (e : SampleIndexEncoder) (s : Sample) : Nat :=
  ((Zigzag32 (s.duration90k - e.prevDuration90k)) <<< 1) % 4294967296 |||
    (if s.isKey then 1 else 0)

/-- Second varint value appended for a sample: the zigzagged delta of the
byte size against the previous sample of the same kind. -/
def encRaw2 (e : SampleIndexEncoder) (s : Sample) : Nat :=
  Zigzag32 (s.bytes - (if s.isKey then e.prevBytesKey else e.prevBytesNonkey))

/-- Encoder-state update performed by `AddSample`. -/
def SampleIndexEncoder.step (e : SampleIndexEncoder) (s : Sample) :
    SampleIndexEncoder :=
  { prevDuration90k := s.duration90k,
    prevBytesKey := if s.isKey then s.bytes else e.prevBytesKey,
    prevBytesNonkey := if s.isKey then e.prevBytesNonkey else s.bytes }

/-- C++ `SampleIndexEncoder::AddSample` (src/recording.cc lines 57-79).
The `CHECK_GE(duration_90k, 0)` and `CHECK_GT(bytes, 0)` aborts are modelled
as preconditions of the theorems. -/
def SampleIndexEncoder.addSample (e : SampleIndexEncoder) (r : Recording)
    (s : Sample) : SampleIndexEncoder × Recording :=
  (e.step s,
   { r with endTime90k := r.endTime90k + s.duration90k,
            sampleFileBytes := r.sampleFileBytes + s.bytes,
            videoSamples := r.videoSamples + 1,
            videoSyncSamples := r.videoSyncSamples + (if s.isKey then 1 else 0),
            videoIndex := AppendVar32 (encRaw2 e s)
              (AppendVar32 (encRaw1 e s) r.videoIndex) })

/-- Iterated `AddSample` over a list of samples. -/
def encodeSamples (e : SampleIndexEncoder) (r : Recording) :
    List Sample → SampleIndexEncoder × Recording
  | [] => (e, r)
  | s :: rest =>
    let (e2, r2) := e.addSample r s
    encodeSamples e2 r2 rest

/-- The index bytes produced by encoding `ss` starting from encoder state
`e`, in isolation. -/
def encodeBytes (e : SampleIndexEncoder) : List Sample → List Nat
  | [] => []
  | s :: rest =>
    AppendVar32 (encRaw1 e s) [] ++ AppendVar32 (encRaw2 e s) [] ++
      encodeBytes (e.step s) rest

/-- Drive the iterator, returning the decoded samples and the final state.
`fuel` bounds the number of steps; the theorems instantiate it with the
number of encoded samples plus one, which is always sufficient. -/
def collectSamples : Nat → SampleIndexIterator →
    List Sample × SampleIndexIterator
  | 0, it => ([], it)
  | fuel + 1, it =>
    if it.done then ([], it)
    else
      let s : Sample :=
        { duration90k := it.duration90k, bytes := it.bytesInternal,
          isKey := it.isKey }
      let (rest, fin) := collectSamples fuel it.next
      (s :: rest, fin)

/-! ### Infrastructure for the round-trip proof -/

theorem appendVar32Slow_out (fuel : Nat) :
    ∀ (v : Nat) (out : List Nat),
      AppendVar32Slow fuel v out = out ++ AppendVar32Slow fuel v [] := by
  induction fuel with
  | zero => intro v out; simp [AppendVar32Slow]
  | succ fuel ih =>
    intro v out
    by_cases h : v >>> 7 = 0
    · simp [AppendVar32Slow, h]
    · rw [show AppendVar32Slow (fuel + 1) v out =
          AppendVar32Slow fuel (v >>> 7) (out ++ [v &&& 127 ||| 128]) by
            simp [AppendVar32Slow, h],
        show AppendVar32Slow (fuel + 1) v [] =
          AppendVar32Slow fuel (v >>> 7) ([] ++ [v &&& 127 ||| 128]) by
            simp [AppendVar32Slow, h]]
      rw [ih (v >>> 7) (out ++ [v &&& 127 ||| 128]),
        ih (v >>> 7) ([] ++ [v &&& 127 ||| 128])]
      simp

theorem appendVar32_out (v : Nat) (out : List Nat) :
    AppendVar32 v out = out ++ AppendVar32 v [] := by
  unfold AppendVar32
  by_cases h : v < 128
  · simp [h]
  · simp only [h, if_false]
    exact appendVar32Slow_out 6 v out

theorem appendVar32_ne_nil {v : Nat} (h : v < 4294967296) :
    AppendVar32 v [] ≠ [] := by
  rcases lt_or_ge v 128 with c1 | c1
  · rw [appendVar32_one c1]; simp
  rcases lt_or_ge v 16384 with c2 | c2
  · rw [appendVar32_two c1 c2]; simp
  rcases lt_or_ge v 2097152 with c3 | c3
  · rw [appendVar32_three c2 c3]; simp
  rcases lt_or_ge v 268435456 with c4 | c4
  · rw [appendVar32_four c3 c4]; simp
  · rw [appendVar32_five c4 h]; simp

theorem encodeSamples_videoIndex (ss : List Sample) :
    ∀ (e : SampleIndexEncoder) (r : Recording),
      (encodeSamples e r ss).2.videoIndex = r.videoIndex ++ encodeBytes e ss := by
  induction ss with
  | nil => intro e r; simp [encodeSamples, encodeBytes]
  | cons s rest ih =>
    intro e r
    show (encodeSamples (e.step s) _ rest).2.videoIndex = _
    rw [ih]
    simp only [SampleIndexEncoder.addSample, encodeBytes]
    rw [appendVar32_out (encRaw2 e s), appendVar32_out (encRaw1 e s)]
    simp

/-- The legality bounds of a single sample, as the amended round-trip claim
requires: a nonnegative `int32` duration small enough that its zigzagged
delta survives the one-bit left shift, and a positive `int32` byte count. -/
def SampleOk (s : Sample) : Prop :=
  0 ≤ s.duration90k ∧ s.duration90k < 1073741824 ∧
    0 < s.bytes ∧ s.bytes < 2147483648

instance (s : Sample) : Decidable (SampleOk s) := by
  unfold SampleOk
  infer_instance

/-- Invariant on the encoder state maintained by legal samples. -/
def EncOk (e : SampleIndexEncoder) : Prop :=
  0 ≤ e.prevDuration90k ∧ e.prevDuration90k < 1073741824 ∧
    0 ≤ e.prevBytesKey ∧ e.prevBytesKey < 2147483648 ∧
    0 ≤ e.prevBytesNonkey ∧ e.prevBytesNonkey < 2147483648

theorem encOk_step {e : SampleIndexEncoder} {s : Sample}
    (hE : EncOk e) (hS : SampleOk s) : EncOk (e.step s) := by
  obtain ⟨h1, h2, h3, h4, h5, h6⟩ := hE
  obtain ⟨g1, g2, g3, g4⟩ := hS
  unfold EncOk SampleIndexEncoder.step
  cases s.isKey <;> simp <;> omega

theorem zigzag32_lt_two31 {d : Int} (h1 : -1073741824 < d) (h2 : d < 1073741824) :
    Zigzag32 d < 2147483648 := by
  rcases le_or_lt 0 d with hge | hlt
  · rw [zigzag32_nonneg hge (by omega)]; omega
  · rw [zigzag32_neg hlt (by omega)]; omega

theorem raw1_eq {e : SampleIndexEncoder} {s : Sample}
    (hz : Zigzag32 (s.duration90k - e.prevDuration90k) < 2147483648) :
    encRaw1 e s = (if s.isKey then 1 else 0) +
      2 * Zigzag32 (s.duration90k - e.prevDuration90k) := by
  unfold encRaw1
  set z := Zigzag32 (s.duration90k - e.prevDuration90k) with hzdef
  have hsl : z <<< 1 = z * 2 := by rw [Nat.shiftLeft_eq]
  have hmod : (z <<< 1) % 4294967296 = z <<< 1 := by
    apply Nat.mod_eq_of_lt
    rw [hsl]
    omega
  rw [hmod, Nat.lor_comm, hsl]
  have := or_shiftLeft_eq_add (a := if s.isKey then 1 else 0) (b := z) (k := 1)
    (by cases s.isKey <;> norm_num)
  rw [Nat.shiftLeft_eq] at this
  norm_num at this
  rw [this]
  ring

theorem raw1_lt {e : SampleIndexEncoder} {s : Sample}
    (hz : Zigzag32 (s.duration90k - e.prevDuration90k) < 2147483648) :
    encRaw1 e s < 4294967296 := by
  rw [raw1_eq hz]
  cases s.isKey <;> simp <;> omega

theorem raw1_shiftRight {e : SampleIndexEncoder} {s : Sample}
    (hz : Zigzag32 (s.duration90k - e.prevDuration90k) < 2147483648) :
    encRaw1 e s >>> 1 = Zigzag32 (s.duration90k - e.prevDuration90k) := by
  rw [raw1_eq hz, Nat.shiftRight_succ, Nat.shiftRight_zero]
  cases s.isKey <;> simp <;> omega

theorem raw1_and_one {e : SampleIndexEncoder} {s : Sample}
    (hz : Zigzag32 (s.duration90k - e.prevDuration90k) < 2147483648) :
    encRaw1 e s &&& 1 = if s.isKey then 1 else 0 := by
  rw [raw1_eq hz, Nat.and_one_is_mod]
  cases s.isKey <;> simp <;> omega

/-- Advancing the iterator over the encoding of `s :: ss` (relative to
matching encoder state `e`) decodes exactly `s` and leaves the encoding of
`ss` pending. -/
theorem next_on_encoded {e : SampleIndexEncoder} {s : Sample} {ss : List Sample}
    {it : SampleIndexIterator}
    (hE : EncOk e) (hS : SampleOk s)
    (hzero : s.duration90k = 0 → ss = [])
    (hdata : it.data = encodeBytes e (s :: ss))
    (hdur : it.duration90k = e.prevDuration90k)
    (hbk : it.bytesKey = e.prevBytesKey)
    (hbn : it.bytesNonkey = e.prevBytesNonkey) :
    it.next = { data := encodeBytes (e.step s) ss
                error := it.error
                pos := it.pos + it.bytesInternal
                start90k := it.start90k + it.duration90k
                duration90k := s.duration90k
                bytesKey := if s.isKey then s.bytes else it.bytesKey
                bytesNonkey := if s.isKey then it.bytesNonkey else s.bytes
                isKey := s.isKey
                done := false } := by
  obtain ⟨e1, e2, e3, e4, e5, e6⟩ := hE
  obtain ⟨g1, g2, g3, g4⟩ := hS
  have hz : Zigzag32 (s.duration90k - e.prevDuration90k) < 2147483648 :=
    zigzag32_lt_two31 (by omega) (by omega)
  have hr1lt : encRaw1 e s < 4294967296 := raw1_lt hz
  have hbdr : -2147483648 ≤ s.bytes -
      (if s.isKey then e.prevBytesKey else e.prevBytesNonkey) ∧
      s.bytes - (if s.isKey then e.prevBytesKey else e.prevBytesNonkey) <
        2147483648 := by
    cases s.isKey <;> simp <;> omega
  have hr2lt : encRaw2 e s < 4294967296 := by
    unfold encRaw2
    exact zigzag32_lt (by omega) (by omega)
  have hdata2 : it.data = AppendVar32 (encRaw1 e s) [] ++
      (AppendVar32 (encRaw2 e s) [] ++ encodeBytes (e.step s) ss) := by
    rw [hdata]
    simp [encodeBytes]
  have hne : ¬ it.data = [] := by
    rw [hdata2]
    intro hcontr
    exact appendVar32_ne_nil hr1lt (List.append_eq_nil.mp hcontr).1
  have hdec1 : DecodeVar32 it.data = (.ok (encRaw1 e s),
      AppendVar32 (encRaw2 e s) [] ++ encodeBytes (e.step s) ss) := by
    rw [hdata2]
    exact decodeVar32_appendVar32 hr1lt _
  have hdec2 : DecodeVar32 (AppendVar32 (encRaw2 e s) [] ++
      encodeBytes (e.step s) ss) = (.ok (encRaw2 e s),
      encodeBytes (e.step s) ss) := decodeVar32_appendVar32 hr2lt _
  have hu1 : Unzigzag32 (encRaw1 e s >>> 1) =
      s.duration90k - e.prevDuration90k := by
    rw [raw1_shiftRight hz]
    exact unzigzag32_zigzag32 (by omega) (by omega)
  have hu2 : Unzigzag32 (encRaw2 e s) = s.bytes -
      (if s.isKey then e.prevBytesKey else e.prevBytesNonkey) := by
    unfold encRaw2
    exact unzigzag32_zigzag32 hbdr.1 hbdr.2
  have hduration : it.duration90k + Unzigzag32 (encRaw1 e s >>> 1) =
      s.duration90k := by
    rw [hu1, hdur]
    ring
  have hkey : (decide (encRaw1 e s &&& 1 = 1)) = s.isKey := by
    rw [raw1_and_one hz]
    cases s.isKey <;> simp
  have hzc : ¬ (s.duration90k = 0 ∧ encodeBytes (e.step s) ss ≠ []) := by
    rintro ⟨hq, hne2⟩
    exact hne2 (by rw [hzero hq]; rfl)
  simp only [SampleIndexIterator.next, hne, if_neg, ite_false, hdec1, hdec2,
    hduration]
  rw [if_neg (show ¬ s.duration90k < 0 by omega), if_neg hzc]
  rw [raw1_and_one hz, hu2]
  cases hk : s.isKey
  · simp only [hk, Bool.false_eq_true, if_false, ite_false]
    norm_num
    rw [if_neg (show ¬ it.bytesNonkey + (s.bytes - e.prevBytesNonkey) ≤ 0 by
      rw [hbn]; omega)]
    simp only [SampleIndexIterator.mk.injEq, hbn]
    norm_num
  · simp only [hk, if_true, ite_true]
    norm_num
    rw [if_neg (show ¬ it.bytesKey + (s.bytes - e.prevBytesKey) ≤ 0 by
      rw [hbk]; omega)]
    simp only [SampleIndexIterator.mk.injEq, hbk]
    norm_num

/-- Driving the iterator over the encoding of `ss` from a matching state
recovers exactly `ss` and ends with a clean, exhausted iterator. -/
theorem collect_encoded (ss : List Sample) :
    ∀ (e : SampleIndexEncoder) (it : SampleIndexIterator),
      EncOk e → (∀ s ∈ ss, SampleOk s) →
      (∀ s ∈ ss.dropLast, s.duration90k ≠ 0) →
      it.data = encodeBytes e ss → it.error = "" →
      it.duration90k = e.prevDuration90k →
      it.bytesKey = e.prevBytesKey → it.bytesNonkey = e.prevBytesNonkey →
      ∃ fin, collectSamples (ss.length + 1) it.next = (ss, fin) ∧
        fin.done = true ∧ fin.error = "" ∧ fin.data = [] := by
  induction ss with
  | nil =>
    intro e it hE hok hz hdata herr hdur hbk hbn
    have hdnil : it.data = [] := by rw [hdata]; rfl
    have hnext : it.next =
        { it with pos := it.pos + it.bytesInternal, done := true } := by
      simp [SampleIndexIterator.next, hdnil]
    refine ⟨it.next, ?_, ?_, ?_, ?_⟩
    · simp [collectSamples, hnext]
    · rw [hnext]
    · rw [hnext]; exact herr
    · rw [hnext]; exact hdnil
  | cons s rest ih =>
    intro e it hE hok hz hdata herr hdur hbk hbn
    have hS : SampleOk s := hok s (by simp)
    have hzero : s.duration90k = 0 → rest = [] := by
      intro h0
      by_contra hne
      refine hz s ?_ h0
      cases rest with
      | nil => exact absurd rfl hne
      | cons a b => simp [List.dropLast]
    have hstep := next_on_encoded hE hS hzero hdata hdur hbk hbn
    have hit1ndone : it.next.done = false := by rw [hstep]
    have hsample : Sample.mk it.next.duration90k it.next.bytesInternal
        it.next.isKey = s := by
      rw [hstep]
      cases hk : s.isKey <;>
        simp [SampleIndexIterator.bytesInternal, hk] <;> rw [← hk]
    obtain ⟨fin, hcol, hdone, herr2, hdata2⟩ :=
      ih (e.step s) it.next (encOk_step hE hS)
        (fun x hx => hok x (by simp [hx]))
        (fun x hx => by
          refine hz x ?_
          cases rest with
          | nil => simp at hx
          | cons a b =>
            simp [List.dropLast] at hx ⊢
            exact Or.inr hx)
        (by rw [hstep]) (by rw [hstep]; exact herr) (by rw [hstep]; rfl)
        (by rw [hstep]
            cases hk : s.isKey <;> simp [SampleIndexEncoder.step, hbk, hk])
        (by rw [hstep]
            cases hk : s.isKey <;> simp [SampleIndexEncoder.step, hbn, hk])
    refine ⟨fin, ?_, hdone, herr2, hdata2⟩
    show collectSamples (rest.length + 1 + 1) it.next = (s :: rest, fin)
    rw [show collectSamples (rest.length + 1 + 1) it.next =
        (if it.next.done then ([], it.next) else
          (Sample.mk it.next.duration90k it.next.bytesInternal it.next.isKey ::
            (collectSamples (rest.length + 1) it.next.next).1,
           (collectSamples (rest.length + 1) it.next.next).2)) from rfl]
    rw [if_neg (by rw [hit1ndone]; simp), hsample, hcol]

/-! ### Claim C1: index round trip -/

/-- The index produced by `SampleIndexEncoder::Init` followed by
`AddSample` for each element of `ss`. -/
def encodeIndex (ss : List Sample) : List Nat :=
  let p := SampleIndexEncoder.init {} 0
  (encodeSamples p.1 p.2 ss).2.videoIndex

/-- C1 (as frozen) is false: for the legal sample `(duration 2^30, 1 byte,
key)` — duration nonnegative, zero duration only at the end, bytes positive —
the `uint32_t` expression `(Zigzag32(duration_delta) << 1) | is_key` in
`SampleIndexEncoder::AddSample` discards the top zigzag bit, so the encoded
index decodes to a different sequence (duration 0) rather than the input. -/
theorem sampleIndex_roundTrip_counterexample :
    encodeIndex [Sample.mk 1073741824 1 true] = [1, 2] ∧
      (collectSamples 2 (mkSampleIndexIterator
          (encodeIndex [Sample.mk 1073741824 1 true]))).1 =
        [Sample.mk 0 1 true] ∧
      [Sample.mk 0 1 true] ≠ [Sample.mk 1073741824 1 true] := by
  refine ⟨by decide, by decide, by decide⟩

/-- C1 (amended): for every legal sequence of samples whose durations are
below 2^30 (so that the zigzagged duration delta survives the one-bit shift;
the recording schema bounds durations by 5 minutes = 27 000 000 ≪ 2^30),
encoding with `AddSample` and iterating the blob with `SampleIndexIterator`
yields exactly the input sequence, ends done with no error, and consumes the
whole blob. -/
theorem sampleIndex_roundTrip (ss : List Sample)
    (hok : ∀ s ∈ ss, SampleOk s)
    (hz : ∀ s ∈ ss.dropLast, s.duration90k ≠ 0) :
    ∃ fin, collectSamples (ss.length + 1)
        (mkSampleIndexIterator (encodeIndex ss)) = (ss, fin) ∧
      fin.done = true ∧ fin.error = "" ∧ fin.data = [] := by
  have hidx : encodeIndex ss =
      encodeBytes (SampleIndexEncoder.mk 0 0 0) ss := by
    unfold encodeIndex
    rw [encodeSamples_videoIndex]
    rfl
  exact collect_encoded ss (SampleIndexEncoder.mk 0 0 0)
    { SampleIndexIterator.clear with data := encodeIndex ss }
    (by unfold EncOk; norm_num) hok hz hidx rfl rfl rfl rfl

/-- Witness for `sampleIndex_roundTrip`, at the worked example of the
recording design document (recording-test.cc `EncodeExample`). -/
theorem sampleIndex_roundTrip_witness :
    ∃ fin, collectSamples 6 (mkSampleIndexIterator (encodeIndex
        [Sample.mk 10 1000 true, Sample.mk 9 10 false, Sample.mk 11 15 false,
         Sample.mk 10 12 false, Sample.mk 10 1050 true])) =
      ([Sample.mk 10 1000 true, Sample.mk 9 10 false, Sample.mk 11 15 false,
        Sample.mk 10 12 false, Sample.mk 10 1050 true], fin) ∧
      fin.done = true ∧ fin.error = "" ∧ fin.data = [] :=
  sampleIndex_roundTrip
    [Sample.mk 10 1000 true, Sample.mk 9 10 false, Sample.mk 11 15 false,
     Sample.mk 10 12 false, Sample.mk 10 1050 true]
    (by decide) (by decide)

/-! ### Claim C3: varint decode errors -/

/-- C3: `DecodeVar32` fails with `buffer underrun` on the five truncated
inputs, fails with `integer overflow` on `80 80 80 80 10`, and in every
failure case leaves the input where it was (it is never advanced past a
successfully decoded value, since nothing was decoded). -/
theorem decodeVar32_error_cases :
    DecodeVar32 [] = (.error "buffer underrun", []) ∧
    DecodeVar32 [0x80] = (.error "buffer underrun", [0x80]) ∧
    DecodeVar32 [0x80, 0x80] = (.error "buffer underrun", [0x80, 0x80]) ∧
    DecodeVar32 [0x80, 0x80, 0x80] =
      (.error "buffer underrun", [0x80, 0x80, 0x80]) ∧
    DecodeVar32 [0x80, 0x80, 0x80, 0x80] =
      (.error "buffer underrun", [0x80, 0x80, 0x80, 0x80]) ∧
    DecodeVar32 [0x80, 0x80, 0x80, 0x80, 0x10] =
      (.error "integer overflow", [0x80, 0x80, 0x80, 0x80, 0x10]) ∧
    ∀ (l : List Nat) (e : String),
      (DecodeVar32 l).1 = .error e → (DecodeVar32 l).2 = l := by
  refine ⟨rfl, rfl, rfl, rfl, rfl, rfl, ?_⟩
  intro l e h
  cases l with
  | nil => rfl
  | cons b rest =>
    by_cases hb : b < 128
    · simp [DecodeVar32, hb] at h
    · cases hslow : DecodeVar32Slow (b :: rest) with
      | error e2 => simp [DecodeVar32, hb, hslow]
      | ok vs => simp [DecodeVar32, hb, hslow] at h

/-- Witness for the universal clause of `decodeVar32_error_cases`. -/
theorem decodeVar32_error_cases_witness :
    (DecodeVar32 [0x80]).2 = [0x80] :=
  decodeVar32_error_cases.2.2.2.2.2.2 [0x80] "buffer underrun" rfl

/-! ### Characterization of the varint decode errors -/

/-- A truncated varint: at most four bytes, all carrying the continuation
bit (the empty string included). -/
def varintTruncated (l : List Nat) : Prop :=
  l.length ≤ 4 ∧ ∀ b ∈ l, b &&& 128 ≠ 0

/-- A varint exceeding 32 bits: four continuation bytes followed by a fifth
byte with a set high nibble. -/
def varintOverflow (l : List Nat) : Prop :=
  5 ≤ l.length ∧ (∀ i < 4, l.getD i 0 &&& 128 ≠ 0) ∧ l.getD 4 0 &&& 240 ≠ 0

/-- On the faster unrolled path, `DecodeVar32Slow` either overflows or
succeeds; it never reports a buffer underrun. -/
theorem decodeVar32Slow_fast {l : List Nat}
    (hbr : 4 ≤ l.length - 1 ∨ l.getD (l.length - 1) 0 &&& 128 = 0) :
    DecodeVar32Slow l = .error "integer overflow" ∨
      ∃ v s, DecodeVar32Slow l = .ok (v, s) := by
  simp only [DecodeVar32Slow]
  rw [if_pos hbr]
  split_ifs <;> first
    | (left; rfl)
    | (right; exact ⟨_, _, rfl⟩)

/-- `DecodeVar32` reports `buffer underrun` exactly on truncated varints. -/
theorem decodeVar32_underrun_iff {l : List Nat} (hbytes : ∀ b ∈ l, b < 256) :
    (DecodeVar32 l).1 = .error "buffer underrun" ↔ varintTruncated l := by
  unfold varintTruncated
  cases l with
  | nil => simp [DecodeVar32]
  | cons b rest =>
    have hblt : b < 256 := hbytes b (by simp)
    by_cases hb : b < 128
    · have hb128 : b &&& 128 = 0 := by rw [and_128_eq]; omega
      simp only [DecodeVar32, hb, if_pos]
      constructor
      · intro h
        exact absurd h (by simp)
      · rintro ⟨_, hall⟩
        exact absurd hb128 (hall b (by simp))
    · have hbc : b &&& 128 ≠ 0 := by rw [and_128_eq]; omega
      have hwrap : (DecodeVar32 (b :: rest)).1 =
          match DecodeVar32Slow (b :: rest) with
          | .error e => .error e
          | .ok (v, _) => .ok v := by
        simp only [DecodeVar32, hb, if_neg]
        cases hslow : DecodeVar32Slow (b :: rest) with
        | error e => rfl
        | ok vs => obtain ⟨v, s⟩ := vs; rfl
      by_cases hbr : 4 ≤ (b :: rest).length - 1 ∨
          ((b :: rest).getD ((b :: rest).length - 1) 0) &&& 128 = 0
      · rcases decodeVar32Slow_fast hbr with hovf | ⟨v, s, hok⟩
        · rw [hwrap, hovf]
          constructor
          · intro h
            exact absurd h (by simp)
          · rintro ⟨hlen, hall⟩
            rcases hbr with h4 | hlast
            · simp at hlen h4; omega
            · have hmem : (b :: rest).getD ((b :: rest).length - 1) 0 ∈
                  b :: rest := by
                have hlt : (b :: rest).length - 1 < (b :: rest).length := by
                  simp
                rw [List.getD_eq_getElem _ _ hlt]
                exact List.getElem_mem hlt
              exact absurd hlast (hall _ hmem)
        · rw [hwrap, hok]
          constructor
          · intro h
            exact absurd h (by simp)
          · rintro ⟨hlen, hall⟩
            rcases hbr with h4 | hlast
            · simp at hlen h4; omega
            · have hmem : (b :: rest).getD ((b :: rest).length - 1) 0 ∈
                  b :: rest := by
                have hlt : (b :: rest).length - 1 < (b :: rest).length := by
                  simp
                rw [List.getD_eq_getElem _ _ hlt]
                exact List.getElem_mem hlt
              exact absurd hlast (hall _ hmem)
      · -- slowest path: at most four bytes, final byte continued
        push_neg at hbr
        obtain ⟨hlen4, hlastc⟩ := hbr
        have hrlen : rest.length ≤ 3 := by simp at hlen4; omega
        have hslow : DecodeVar32Slow (b :: rest) =
            (let st := DecodeVar32SlowTail (b :: rest)
             if st.2.2 = 0 ∧
                ((b :: rest).getD (st.2.1 - 1) 0) &&& 128 ≠ 0 then
               .error "buffer underrun"
             else .ok (st.1, st.2.1)) := by
          simp only [DecodeVar32Slow]
          rw [if_neg (by push_neg; exact ⟨by simpa using hlen4, hlastc⟩)]
        rcases rest with _ | ⟨c, _ | ⟨d, _ | ⟨f, _ | ⟨g, rest5⟩⟩⟩⟩
        · rw [hwrap, hslow]
          simp only [DecodeVar32SlowTail]
          norm_num
          simp [hbc]
        · have hcc : c &&& 128 ≠ 0 := by simpa using hlastc
          rw [hwrap, hslow]
          simp only [DecodeVar32SlowTail]
          norm_num
          simp [hbc, hcc]
        · have hdc : d &&& 128 ≠ 0 := by simpa using hlastc
          rw [hwrap, hslow]
          simp only [DecodeVar32SlowTail]
          norm_num
          by_cases hcc : c &&& 128 ≠ 0
          · simp [hbc, hcc, hdc]
          · push_neg at hcc
            simp [hbc, hcc, hdc]
        · have hfc : f &&& 128 ≠ 0 := by simpa using hlastc
          rw [hwrap, hslow]
          simp only [DecodeVar32SlowTail]
          norm_num
          by_cases hcc : c &&& 128 ≠ 0
          · by_cases hdc : d &&& 128 ≠ 0
            · simp [hbc, hcc, hdc, hfc]
            · push_neg at hdc
              simp [hbc, hcc, hdc, hfc]
          · push_neg at hcc
            simp [hbc, hcc, hfc]
        · simp at hrlen

/-- `DecodeVar32` reports `integer overflow` exactly on varints whose fifth
byte has a set high nibble after four continuation bytes. -/
theorem decodeVar32_overflow_iff {l : List Nat} (hbytes : ∀ b ∈ l, b < 256) :
    (DecodeVar32 l).1 = .error "integer overflow" ↔ varintOverflow l := by
  unfold varintOverflow
  cases l with
  | nil =>
    constructor
    · intro h
      exact absurd h (by simp [DecodeVar32])
    · rintro ⟨hlen, _, _⟩
      simp at hlen
  | cons b rest =>
    have hblt : b < 256 := hbytes b (by simp)
    by_cases hb : b < 128
    · have hb128 : b &&& 128 = 0 := by rw [and_128_eq]; omega
      constructor
      · intro h
        exact absurd h (by simp [DecodeVar32, hb])
      · rintro ⟨_, hall, _⟩
        exact absurd hb128 (hall 0 (by norm_num))
    · have hbc : b &&& 128 ≠ 0 := by rw [and_128_eq]; omega
      have hwrap : (DecodeVar32 (b :: rest)).1 =
          match DecodeVar32Slow (b :: rest) with
          | .error e => .error e
          | .ok (v, _) => .ok v := by
        simp only [DecodeVar32, hb, if_neg]
        cases hslow : DecodeVar32Slow (b :: rest) with
        | error e => rfl
        | ok vs => obtain ⟨v, s⟩ := vs; rfl
      by_cases hbr : 4 ≤ (b :: rest).length - 1 ∨
          ((b :: rest).getD ((b :: rest).length - 1) 0) &&& 128 = 0
      · have hfast : DecodeVar32Slow (b :: rest) =
            (if ((b :: rest).getD 1 0) &&& 128 ≠ 0 then
               if ((b :: rest).getD 2 0) &&& 128 ≠ 0 then
                 if ((b :: rest).getD 3 0) &&& 128 ≠ 0 then
                   if ((b :: rest).getD 4 0) &&& 240 ≠ 0 then
                     .error "integer overflow"
                   else
                     .ok ((((b :: rest).getD 0 0) &&& 127 |||
                       (((b :: rest).getD 1 0) &&& 127) <<< 7 |||
                       (((b :: rest).getD 2 0) &&& 127) <<< 14 |||
                       (((b :: rest).getD 3 0) &&& 127) <<< 21 |||
                       (((b :: rest).getD 4 0) &&& 127) <<< 28), 5)
                 else
                   .ok ((((b :: rest).getD 0 0) &&& 127 |||
                     (((b :: rest).getD 1 0) &&& 127) <<< 7 |||
                     (((b :: rest).getD 2 0) &&& 127) <<< 14 |||
                     (((b :: rest).getD 3 0) &&& 127) <<< 21), 4)
               else
                 .ok ((((b :: rest).getD 0 0) &&& 127 |||
                   (((b :: rest).getD 1 0) &&& 127) <<< 7 |||
                   (((b :: rest).getD 2 0) &&& 127) <<< 14), 3)
             else
               .ok ((((b :: rest).getD 0 0) &&& 127 |||
                 (((b :: rest).getD 1 0) &&& 127) <<< 7), 2)) := by
          simp only [DecodeVar32Slow]
          rw [if_pos hbr]
        by_cases h1 : ((b :: rest).getD 1 0) &&& 128 ≠ 0
        case neg =>
          push_neg at h1
          constructor
          · intro hcontr
            rw [hwrap, hfast, if_neg (not_not_intro h1)] at hcontr
            simp at hcontr
          · rintro ⟨_, hall, _⟩
            exact absurd h1 (hall 1 (by norm_num))
        case pos =>
        by_cases h2 : ((b :: rest).getD 2 0) &&& 128 ≠ 0
        case neg =>
          push_neg at h2
          constructor
          · intro hcontr
            rw [hwrap, hfast, if_pos h1, if_neg (not_not_intro h2)] at hcontr
            simp at hcontr
          · rintro ⟨_, hall, _⟩
            exact absurd h2 (hall 2 (by norm_num))
        case pos =>
        by_cases h3 : ((b :: rest).getD 3 0) &&& 128 ≠ 0
        case neg =>
          push_neg at h3
          constructor
          · intro hcontr
            rw [hwrap, hfast, if_pos h1, if_pos h2,
              if_neg (not_not_intro h3)] at hcontr
            simp at hcontr
          · rintro ⟨_, hall, _⟩
            exact absurd h3 (hall 3 (by norm_num))
        case pos =>
        have hlen5 : 5 ≤ (b :: rest).length := by
          by_contra hlt
          push_neg at hlt
          rcases hbr with h4 | hlast
          · simp at h4 hlt
            omega
          · have hj : (b :: rest).length - 1 ≤ 3 := by simp at hlt ⊢; omega
            interval_cases hjv : (b :: rest).length - 1
            · exact hbc (by simpa [hjv] using hlast)
            · exact h1 (by simpa [hjv] using hlast)
            · exact h2 (by simpa [hjv] using hlast)
            · exact h3 (by simpa [hjv] using hlast)
        by_cases h4 : ((b :: rest).getD 4 0) &&& 240 ≠ 0
        · constructor
          · intro _
            refine ⟨hlen5, fun i hi => ?_, h4⟩
            interval_cases i
            · exact hbc
            · exact h1
            · exact h2
            · exact h3
          · intro _
            rw [hwrap, hfast, if_pos h1, if_pos h2, if_pos h3, if_pos h4]
        · push_neg at h4
          constructor
          · intro hcontr
            rw [hwrap, hfast, if_pos h1, if_pos h2, if_pos h3,
              if_neg (not_not_intro h4)] at hcontr
            simp at hcontr
          · rintro ⟨_, _, hnib⟩
            exact absurd h4 hnib
      · -- slowest path never reports an overflow
        push_neg at hbr
        obtain ⟨hlen4, hlastc⟩ := hbr
        have hslow : DecodeVar32Slow (b :: rest) =
            (let st := DecodeVar32SlowTail (b :: rest)
             if st.2.2 = 0 ∧
                ((b :: rest).getD (st.2.1 - 1) 0) &&& 128 ≠ 0 then
               .error "buffer underrun"
             else .ok (st.1, st.2.1)) := by
          simp only [DecodeVar32Slow]
          rw [if_neg (by push_neg; exact ⟨by simpa using hlen4, hlastc⟩)]
        constructor
        · intro h
          rw [hwrap, hslow] at h
          by_cases hc : (DecodeVar32SlowTail (b :: rest)).2.2 = 0 ∧
              ((b :: rest).getD ((DecodeVar32SlowTail (b :: rest)).2.1 - 1) 0)
                &&& 128 ≠ 0
          · rw [if_pos hc] at h
            exact absurd h (by simp)
          · rw [if_neg hc] at h
            exact absurd h (by simp)
        · rintro ⟨hlen, _, _⟩
          simp at hlen hlen4
          omega

/-- The only error messages `DecodeVar32Slow` can produce. -/
theorem decodeVar32Slow_error_elim {l : List Nat} {e : String}
    (h : DecodeVar32Slow l = .error e) :
    e = "buffer underrun" ∨ e = "integer overflow" := by
  simp only [DecodeVar32Slow] at h
  split_ifs at h
  all_goals
    try (exfalso; exact Except.noConfusion h)
  all_goals
    simp only [Except.error.injEq] at h
  all_goals
    first
      | exact Or.inl h.symm
      | exact Or.inr h.symm

/-- The only error messages `DecodeVar32` can produce. -/
theorem decodeVar32_error_elim {l : List Nat} {e : String}
    (h : (DecodeVar32 l).1 = .error e) :
    e = "buffer underrun" ∨ e = "integer overflow" := by
  cases l with
  | nil =>
    simp only [DecodeVar32, Except.error.injEq] at h
    exact Or.inl h.symm
  | cons b rest =>
    by_cases hb : b < 128
    · simp [DecodeVar32, hb] at h
    · cases hslow : DecodeVar32Slow (b :: rest) with
      | error e2 =>
        have he2 : e2 = e := by
          simp [DecodeVar32, hb, hslow] at h
          exact h
        rw [← he2]
        exact decodeVar32Slow_error_elim hslow
      | ok vs =>
        obtain ⟨v, s⟩ := vs
        simp [DecodeVar32, hb, hslow] at h

/-- A successful `DecodeVar32` leaves a suffix of the input. -/
theorem decodeVar32_ok_drop {l d : List Nat} {v : Nat}
    (h : DecodeVar32 l = (.ok v, d)) : ∃ k, d = l.drop k := by
  cases l with
  | nil => simp [DecodeVar32] at h
  | cons b rest =>
    by_cases hb : b < 128
    · refine ⟨1, ?_⟩
      simp [DecodeVar32, hb] at h
      simp [← h.2]
    · cases hslow : DecodeVar32Slow (b :: rest) with
      | error e2 => simp [DecodeVar32, hb, hslow] at h
      | ok vs =>
        obtain ⟨v2, s⟩ := vs
        refine ⟨s, ?_⟩
        simp [DecodeVar32, hb, hslow] at h
        simp [← h.2]

/-- Byte bounds carry over to the remainder of a successful decode. -/
theorem bytes_of_drop {l d : List Nat} (hbytes : ∀ b ∈ l, b < 256) {v : Nat}
    (h : DecodeVar32 l = (.ok v, d)) : ∀ b ∈ d, b < 256 := by
  obtain ⟨k, hk⟩ := decodeVar32_ok_drop h
  intro b hb
  exact hbytes b (by rw [hk] at hb; exact List.mem_of_mem_drop hb)

/-- An error of `DecodeVar32` is `buffer underrun` exactly on truncated
varints and `integer overflow` exactly on oversized ones. -/
theorem decodeVar32_error_matches {l : List Nat} {e : String}
    (hbytes : ∀ b ∈ l, b < 256) (h : (DecodeVar32 l).1 = .error e) :
    (e = "buffer underrun" ↔ varintTruncated l) ∧
      (e = "integer overflow" ↔ varintOverflow l) := by
  constructor
  · constructor
    · intro he
      subst he
      exact (decodeVar32_underrun_iff hbytes).mp h
    · intro ht
      have h2 := (decodeVar32_underrun_iff hbytes).mpr ht
      rw [h] at h2
      simp only [Except.error.injEq] at h2
      exact h2
  · constructor
    · intro he
      subst he
      exact (decodeVar32_overflow_iff hbytes).mp h
    · intro ht
      have h2 := (decodeVar32_overflow_iff hbytes).mpr ht
      rw [h] at h2
      simp only [Except.error.injEq] at h2
      exact h2

/-! ### Claim C2: the failure cases of SampleIndexIterator advance -/

/-- C2: `SampleIndexIterator::Next` on an error-free state fails exactly in
the claimed cases with the claimed messages: copying `buffer underrun`
(iff a varint is truncated) or `integer overflow` (iff a varint exceeds 32
bits) from either varint decode; `negative duration …` when the running
duration drops below 0; `zero duration only allowed at end …` when a sample
decodes to duration 0 with input remaining; `non-positive bytes …` when the
running size of the decoded kind becomes ≤ 0; and an exhausted blob ends
done with no error. -/
theorem sampleIndexIterator_next_cases (it : SampleIndexIterator)
    (herr : it.error = "") (hbytes : ∀ b ∈ it.data, b < 256) :
    (it.data = [] → it.next.done = true ∧ it.next.error = "") ∧
    (∀ e d1, DecodeVar32 it.data = (.error e, d1) → it.data ≠ [] →
      it.next.done = true ∧ it.next.error = e ∧
        (e = "buffer underrun" ↔ varintTruncated it.data) ∧
        (e = "integer overflow" ↔ varintOverflow it.data)) ∧
    (∀ raw1 d1 e d2, DecodeVar32 it.data = (.ok raw1, d1) →
        DecodeVar32 d1 = (.error e, d2) →
      it.next.done = true ∧ it.next.error = e ∧
        (e = "buffer underrun" ↔ varintTruncated d1) ∧
        (e = "integer overflow" ↔ varintOverflow d1)) ∧
    (∀ raw1 d1 raw2 d2, DecodeVar32 it.data = (.ok raw1, d1) →
        DecodeVar32 d1 = (.ok raw2, d2) →
      (it.duration90k + Unzigzag32 (raw1 >>> 1) < 0 →
        it.next.done = true ∧ it.next.error =
          "negative duration " ++
            toString (it.duration90k + Unzigzag32 (raw1 >>> 1)) ++
            " after applying delta " ++ toString (Unzigzag32 (raw1 >>> 1))) ∧
      (it.duration90k + Unzigzag32 (raw1 >>> 1) = 0 → d2 ≠ [] →
        it.next.done = true ∧ it.next.error =
          "zero duration only allowed at end; have " ++
            toString d2.length ++ "bytes left.") ∧
      (0 < it.duration90k + Unzigzag32 (raw1 >>> 1) ∨
          (it.duration90k + Unzigzag32 (raw1 >>> 1) = 0 ∧ d2 = []) →
        (if raw1 &&& 1 = 1 then it.bytesKey + Unzigzag32 raw2
          else it.bytesNonkey + Unzigzag32 raw2) ≤ 0 →
        it.next.done = true ∧ it.next.error =
          "non-positive bytes " ++
            toString (if raw1 &&& 1 = 1 then it.bytesKey + Unzigzag32 raw2
              else it.bytesNonkey + Unzigzag32 raw2) ++
            " after applying delta " ++ toString (Unzigzag32 raw2) ++ " to " ++
            (if raw1 &&& 1 = 1 then "key" else "non-key") ++ " frame at ts " ++
            toString (it.start90k + it.duration90k)) ∧
      (0 < it.duration90k + Unzigzag32 (raw1 >>> 1) ∨
          (it.duration90k + Unzigzag32 (raw1 >>> 1) = 0 ∧ d2 = []) →
        0 < (if raw1 &&& 1 = 1 then it.bytesKey + Unzigzag32 raw2
          else it.bytesNonkey + Unzigzag32 raw2) →
        it.next.done = false ∧ it.next.error = "")) := by
  refine ⟨?_, ?_, ?_, ?_⟩
  · intro hd
    constructor
    · simp [SampleIndexIterator.next, hd]
    · simp [SampleIndexIterator.next, hd, herr]
  · intro e d1 hdec hne
    have hfst : (DecodeVar32 it.data).1 = .error e := by rw [hdec]
    have hmatch := decodeVar32_error_matches hbytes hfst
    refine ⟨?_, ?_, hmatch.1, hmatch.2⟩
    · simp [SampleIndexIterator.next, hne, hdec]
    · simp [SampleIndexIterator.next, hne, hdec]
  · intro raw1 d1 e d2 h1 h2
    have hne : it.data ≠ [] := by
      intro hd
      rw [hd] at h1
      simp [DecodeVar32] at h1
    have hfst : (DecodeVar32 d1).1 = .error e := by rw [h2]
    have hmatch := decodeVar32_error_matches (bytes_of_drop hbytes h1) hfst
    refine ⟨?_, ?_, hmatch.1, hmatch.2⟩
    · simp [SampleIndexIterator.next, hne, h1, h2]
    · simp [SampleIndexIterator.next, hne, h1, h2]
  · intro raw1 d1 raw2 d2 h1 h2
    have hne : it.data ≠ [] := by
      intro hd
      rw [hd] at h1
      simp [DecodeVar32] at h1
    refine ⟨?_, ?_, ?_, ?_⟩
    · intro hneg
      constructor
      · simp only [SampleIndexIterator.next, hne, if_neg, ite_false, h1, h2]
        rw [if_pos hneg]
      · simp only [SampleIndexIterator.next, hne, if_neg, ite_false, h1, h2]
        rw [if_pos hneg]
    · intro hz hdne
      have hnneg : ¬ it.duration90k + Unzigzag32 (raw1 >>> 1) < 0 := by omega
      constructor
      · simp only [SampleIndexIterator.next, hne, if_neg, ite_false, h1, h2]
        rw [if_neg hnneg, if_pos ⟨hz, hdne⟩]
      · simp only [SampleIndexIterator.next, hne, if_neg, ite_false, h1, h2]
        rw [if_neg hnneg, if_pos ⟨hz, hdne⟩]
    · intro hpos hbcur
      have hnneg : ¬ it.duration90k + Unzigzag32 (raw1 >>> 1) < 0 := by
        rcases hpos with hgt | ⟨hz, _⟩ <;> omega
      have hnz : ¬ (it.duration90k + Unzigzag32 (raw1 >>> 1) = 0 ∧ d2 ≠ []) := by
        rcases hpos with hgt | ⟨hz, hd2⟩
        · rintro ⟨hz2, _⟩
          omega
        · rintro ⟨_, hd2ne⟩
          exact hd2ne hd2
      have hbcur2 : (if raw1 &&& 1 = 1 then
            if raw1 &&& 1 = 1 then it.bytesKey + Unzigzag32 raw2
            else it.bytesKey
          else
            if raw1 &&& 1 = 1 then it.bytesNonkey
            else it.bytesNonkey + Unzigzag32 raw2) ≤ 0 := by
        by_cases hkey : raw1 &&& 1 = 1 <;> simp [hkey] at hbcur ⊢ <;> omega
      constructor
      · simp only [SampleIndexIterator.next, hne, if_neg, ite_false, h1, h2,
          decide_eq_true_eq]
        rw [if_neg hnneg, if_neg hnz, if_pos hbcur2]
      · simp only [SampleIndexIterator.next, hne, if_neg, ite_false, h1, h2,
          decide_eq_true_eq]
        rw [if_neg hnneg, if_neg hnz, if_pos hbcur2]
        by_cases hkey : raw1 % 2 = 1 <;> simp [hkey]
    · intro hpos hbcur
      have hnneg : ¬ it.duration90k + Unzigzag32 (raw1 >>> 1) < 0 := by
        rcases hpos with hgt | ⟨hz, _⟩ <;> omega
      have hnz : ¬ (it.duration90k + Unzigzag32 (raw1 >>> 1) = 0 ∧ d2 ≠ []) := by
        rcases hpos with hgt | ⟨hz, hd2⟩
        · rintro ⟨hz2, _⟩
          omega
        · rintro ⟨_, hd2ne⟩
          exact hd2ne hd2
      have hnb2 : ¬ (if raw1 &&& 1 = 1 then
            if raw1 &&& 1 = 1 then it.bytesKey + Unzigzag32 raw2
            else it.bytesKey
          else
            if raw1 &&& 1 = 1 then it.bytesNonkey
            else it.bytesNonkey + Unzigzag32 raw2) ≤ 0 := by
        by_cases hkey : raw1 &&& 1 = 1 <;> simp [hkey] at hbcur ⊢ <;> omega
      constructor
      · simp only [SampleIndexIterator.next, hne, if_neg, ite_false, h1, h2,
          decide_eq_true_eq]
        rw [if_neg hnneg, if_neg hnz, if_neg hnb2]
      · simp only [SampleIndexIterator.next, hne, if_neg, ite_false, h1, h2,
          decide_eq_true_eq]
        rw [if_neg hnneg, if_neg hnz, if_neg hnb2]
        exact herr

/-- Witness for `sampleIndexIterator_next_cases`: a fresh iterator over the
truncated blob `80` fails with `buffer underrun`, and one over the blob of
the worked example decodes its first sample without error. -/
theorem sampleIndexIterator_next_cases_witness :
    ({ SampleIndexIterator.clear with
        data := [128] } : SampleIndexIterator).next.done = true ∧
      ({ SampleIndexIterator.clear with
        data := [128] } : SampleIndexIterator).next.error = "buffer underrun" :=
  have h := sampleIndexIterator_next_cases
    { SampleIndexIterator.clear with data := [128] } rfl (by decide)
  have h2 := h.2.1 "buffer underrun" [128] rfl (by decide)
  ⟨h2.1, h2.2.1⟩

/-! ### HTTP Range header parsing (`http.cc` / `string.cc`) -/

/-- One byte range, embedding `ByteRange` from `http.h` (`begin`/`end`;
renamed since `end` is reserved). -/
structure ByteRange where
  rbegin : Int
  rend : Int
deriving DecidableEq

/-- Result classification of `internal::ParseRangeHeader` from `http.h`. -/
inductive RangeHeaderType where
  | kAbsentOrInvalid
  | kNotSatisfiable
  | kSatisfiable
deriving DecidableEq

/-- Whitespace recognized by `strtoll` (what `isspace` accepts in the C
locale). -/
def isSpaceChar (c : Char) : Bool :=
  c = ' ' || c = '\t' || c = '\n' || c = '\x0b' || c = '\x0c' || c = '\r'

/-- Decimal digit run consumed by `strtoll`: accumulates the value and
returns the rest of the input. -/
def parseDigits : List Char → Nat → Nat × List Char
  | [], acc => (acc, [])
  | c :: rest, acc =>
      if '0' ≤ c ∧ c ≤ '9' then parseDigits rest (acc * 10 + (c.toNat - '0'.toNat))
      else (acc, c :: rest)

/-- `strto64(str, 10, &endptr, &value)` from `string.cc`: wraps `strtoll`
base 10 (skip whitespace, optional sign, decimal digits) and reports success
iff at least one digit was converted (`*endptr != str`) and no overflow
occurred (`errno == 0`). On success returns the value and the unconsumed
suffix (`endptr`). -/
def strto64 (s : List Char) : Option (Int × List Char) :=
  let t := List.dropWhile isSpaceChar s
  let signAndRest : Bool × List Char :=
    match t with
    | '-' :: rest => (true, rest)
    | '+' :: rest => (false, rest)
    | _ => (false, t)
  match h : signAndRest.2 with
  | [] => none
  | c :: _ =>
      if '0' ≤ c ∧ c ≤ '9' then
        let nr := parseDigits signAndRest.2 0
        let v : Int := if signAndRest.1 then -(nr.1 : Int) else (nr.1 : Int)
        if v < -(2 ^ 63) ∨ (2 ^ 63 : Int) - 1 < v then none
        else some (v, nr.2)
      else none

/-- The `while (*inptr != 0)` loop of `internal::ParseRangeHeader`
(`http.cc` lines 127–177), with the string as a `List Char` (the NUL
terminator is the empty list) and fuel for termination: each iteration
consumes at least one character, so `length + 1` fuel always suffices. -/
def parseRangeLoop (fuel : Nat) (size : Int) (inptr : List Char)
    (ranges : List ByteRange) (nRanges : Nat) :
    RangeHeaderType × List ByteRange :=
  match fuel with
  | 0 => (RangeHeaderType.kAbsentOrInvalid, ranges)
  | fuel + 1 =>
    match inptr with
    | [] =>
        if nRanges = 0 then (RangeHeaderType.kAbsentOrInvalid, ranges)
        else if ranges = [] then (RangeHeaderType.kNotSatisfiable, ranges)
        else (RangeHeaderType.kSatisfiable, ranges)
    | _ :: _ =>
        -- after a byte-range-spec: `if (*inptr == ',') { inptr++; if (*inptr == 0) invalid; }`
        let afterSpec : List ByteRange → List Char → RangeHeaderType × List ByteRange :=
          fun ranges' inptr' =>
            match inptr' with
            | ',' :: [] => (RangeHeaderType.kAbsentOrInvalid, ranges')
            | ',' :: rest => parseRangeLoop fuel size rest ranges' (nRanges + 1)
            | _ => parseRangeLoop fuel size inptr' ranges' (nRanges + 1)
        match strto64 inptr with
        | none => (RangeHeaderType.kAbsentOrInvalid, ranges)
        | some (value, endptr) =>
            if value < 0 then
              -- suffix-byte-range-spec
              let rb := max (size + value) 0
              let ranges' := if rb < size then ranges ++ [ByteRange.mk rb size] else ranges
              afterSpec ranges' endptr
            else
              match endptr with
              | '-' :: afterDash =>
                  match afterDash with
                  | [] =>
                      let ranges' := if value < size then ranges ++ [ByteRange.mk value size] else ranges
                      afterSpec ranges' afterDash
                  | ',' :: _ =>
                      let ranges' := if value < size then ranges ++ [ByteRange.mk value size] else ranges
                      afterSpec ranges' afterDash
                  | _ =>
                      match strto64 afterDash with
                      | none => (RangeHeaderType.kAbsentOrInvalid, ranges)
                      | some (v2, e2) =>
                          if v2 < value then (RangeHeaderType.kAbsentOrInvalid, ranges)
                          else
                            let re := min size (v2 + 1)
                            let ranges' := if value < size then ranges ++ [ByteRange.mk value re] else ranges
                            afterSpec ranges' e2
              | _ => (RangeHeaderType.kAbsentOrInvalid, ranges)

/-- `internal::ParseRangeHeader(inptr, size, ranges)` from `http.cc`:
`none` models a null header pointer; the `bytes=` prefix is checked with
`strncmp`, then the loop above runs on the remainder. Returns the
classification together with the final contents of `*ranges`. -/
def ParseRangeHeader (value : Option (List Char)) (size : Int) :
    RangeHeaderType × List ByteRange :=
  match value with
  | none => (RangeHeaderType.kAbsentOrInvalid, [])
  | some s =>
      if s.take 6 = "bytes=".toList then
        parseRangeLoop (s.length + 1) size (s.drop 6) [] 0
      else (RangeHeaderType.kAbsentOrInvalid, [])

/-- **C4.** `ParseRangeHeader` with `size = 10000` classifies and converts
the RFC 7233 examples exactly as claimed: `bytes=0-499` gives the single
range `[0, 500)`; the suffix form `bytes=-500` gives `[9500, 10000)`;
`bytes=9500-` gives `[9500, 10000)`; `bytes=0-0,-1` gives the two ranges
`[0, 1)` and `[9999, 10000)`; `bytes=10000-` (start ≥ size) is
not-satisfiable; `bytes=499-0` (end before start) and a missing header are
absent-or-invalid. -/
theorem parseRangeHeader_rfc7233_cases :
    ParseRangeHeader (some "bytes=0-499".toList) 10000
        = (RangeHeaderType.kSatisfiable, [ByteRange.mk 0 500]) ∧
      ParseRangeHeader (some "bytes=-500".toList) 10000
        = (RangeHeaderType.kSatisfiable, [ByteRange.mk 9500 10000]) ∧
      ParseRangeHeader (some "bytes=9500-".toList) 10000
        = (RangeHeaderType.kSatisfiable, [ByteRange.mk 9500 10000]) ∧
      ParseRangeHeader (some "bytes=0-0,-1".toList) 10000
        = (RangeHeaderType.kSatisfiable,
            [ByteRange.mk 0 1, ByteRange.mk 9999 10000]) ∧
      ParseRangeHeader (some "bytes=10000-".toList) 10000
        = (RangeHeaderType.kNotSatisfiable, []) ∧
      ParseRangeHeader (some "bytes=499-0".toList) 10000
        = (RangeHeaderType.kAbsentOrInvalid, []) ∧
      ParseRangeHeader (none : Option (List Char)) 10000
        = (RangeHeaderType.kAbsentOrInvalid, []) :=
  ⟨rfl, rfl, rfl, rfl, rfl, rfl, rfl⟩

/-! ### Sample file writer (`recording.cc` lines 135–213) -/

/-- Outcome of one underlying `file_->Write` syscall inside
`SampleFileWriter::Write`: success having written `written` bytes, or
failure (`write_ret != 0`). -/
inductive WriteRes where
  | ok (written : Nat)
  | err
deriving DecidableEq

/-- State of `SampleFileWriter` relevant to `Write`/`Close`: the file
offset `pos_` (an int64), the `corrupt_` flag, and the byte stream fed to
`sha1_` (the digest is modelled by the stream itself). -/
structure SampleFileWriter where
  pos : Int
  corrupt : Bool
  sha1Bytes : List Nat
deriving DecidableEq

/-- The `while (!remaining.empty())` loop of `SampleFileWriter::Write`
(`recording.cc` lines 159–178). `script` supplies the outcome of each
successive `file_->Write` call (an exhausted script behaves as a failing
call); `oldPos` is the position saved on entry; the file contents are
carried explicitly, with a successful write appending at end of file (the
file offset always equals the file length here) and
`file_->Truncate(old_pos)` modelled by `List.take`; `truncOk` says whether
that truncate call succeeds. Returns the C++ return value, the writer
state, and the file contents. As in the source, `pos_` is not rewound
after a successful truncate and `corrupt_` is set only when the truncate
itself fails. -/
def writeLoop (truncOk : Bool) (oldPos : Int) :
    List WriteRes → List Nat → SampleFileWriter → List Nat →
    Bool × SampleFileWriter × List Nat
  | script, remaining, w, file =>
    match remaining with
    | [] => (true, w, file)
    | _ :: _ =>
      match script with
      | WriteRes.ok n :: rest =>
          writeLoop truncOk oldPos rest (remaining.drop (min n remaining.length))
            { w with pos := w.pos + min n remaining.length }
            (file ++ remaining.take (min n remaining.length))
      | _ =>
          if oldPos < w.pos then
            if truncOk then (false, w, file.take oldPos.toNat)
            else (false, { w with corrupt := true }, file)
          else (false, w, file)

/-- `SampleFileWriter::Write` (`recording.cc` lines 153–182) on an open
writer: runs the loop above and, on success only, feeds the whole packet
to `sha1_`. -/
def SampleFileWriter.write (w : SampleFileWriter) (file pkt : List Nat)
    (script : List WriteRes) (truncOk : Bool) :
    Bool × SampleFileWriter × List Nat :=
  let r := writeLoop truncOk w.pos script pkt w file
  if r.1 then
    (true, { r.2.1 with sha1Bytes := r.2.1.sha1Bytes ++ pkt }, r.2.2)
  else r

/-- `SampleFileWriter::Close` (`recording.cc` lines 184–213) on an open
writer: `syncOk` and `closeOk` are the outcomes of `file_->Sync()` and
`file_->Close()`; the return value is `!corrupt_` as of after both calls,
and the digest of everything successfully written is produced. -/
def SampleFileWriter.close (w : SampleFileWriter) (syncOk closeOk : Bool) :
    Bool × List Nat :=
  let corrupt1 := w.corrupt || !syncOk
  let corrupt2 := corrupt1 || !closeOk
  (!corrupt2, w.sha1Bytes)

/-- Invariant proof for `writeLoop`: starting from a writer whose position
equals `file₀.length + extra.length` over contents `file₀ ++ extra` and
with `oldPos = file₀.length`, a failing run with a succeeding truncate
restores the contents to `file₀`, and the `corrupt_` flag is set exactly
when the run fails, the truncate fails, and bytes had been written past
`oldPos`. -/
theorem writeLoop_spec (truncOk : Bool) (file₀ : List Nat) :
    ∀ (script : List WriteRes) (remaining : List Nat) (w : SampleFileWriter)
      (extra : List Nat),
      w.pos = (file₀.length : Int) + extra.length → w.corrupt = false →
      ((writeLoop truncOk (file₀.length : Int) script remaining w
            (file₀ ++ extra)).1 = false → truncOk = true →
          (writeLoop truncOk (file₀.length : Int) script remaining w
            (file₀ ++ extra)).2.2 = file₀) ∧
        ((writeLoop truncOk (file₀.length : Int) script remaining w
              (file₀ ++ extra)).2.1.corrupt = true ↔
          (writeLoop truncOk (file₀.length : Int) script remaining w
              (file₀ ++ extra)).1 = false ∧ truncOk = false ∧
            (file₀.length : Int) <
              (writeLoop truncOk (file₀.length : Int) script remaining w
                (file₀ ++ extra)).2.1.pos) := by
  intro script
  induction script with
  | nil =>
    intro remaining w extra hpos hc
    cases remaining with
    | nil =>
      simp only [writeLoop]
      exact ⟨fun h => absurd h (by simp), by simp [hc]⟩
    | cons b bs =>
      simp only [writeLoop]
      by_cases hlt : (file₀.length : Int) < w.pos
      · rw [if_pos hlt]
        by_cases ht : truncOk = true
        · rw [if_pos ht]
          refine ⟨fun _ _ => ?_, by simp [hc, ht]⟩
          show List.take (Int.toNat (file₀.length : Int)) (file₀ ++ extra) = file₀
          have hto : (Int.toNat (file₀.length : Int)) = file₀.length := by omega
          rw [hto]
          exact List.take_left _ _
        · rw [if_neg ht]
          have ht' : truncOk = false := by simpa using ht
          exact ⟨fun _ hcon => absurd hcon ht,
            iff_of_true rfl ⟨rfl, ht', hlt⟩⟩
      · rw [if_neg hlt]
        have hx : extra = [] := by
          cases extra with
          | nil => rfl
          | cons e es => exact absurd (by rw [hpos]; simp) hlt
        subst hx
        refine ⟨fun _ _ => by simp, ?_⟩
        simp [hc, hpos]
  | cons head tail ih =>
    intro remaining w extra hpos hc
    cases remaining with
    | nil =>
      simp only [writeLoop]
      exact ⟨fun h => absurd h (by simp), by simp [hc]⟩
    | cons b bs =>
      cases head with
      | ok n =>
        simp only [writeLoop]
        have hassoc : file₀ ++ extra ++ List.take (min n (b :: bs).length) (b :: bs)
            = file₀ ++ (extra ++ List.take (min n (b :: bs).length) (b :: bs)) := by
          rw [List.append_assoc]
        rw [hassoc]
        apply ih (List.drop (min n (b :: bs).length) (b :: bs))
          { w with pos := w.pos + (min n (b :: bs).length : Nat) }
          (extra ++ List.take (min n (b :: bs).length) (b :: bs))
        · simp only [List.length_append, List.length_take]
          rw [hpos]
          have : min n (b :: bs).length ≤ (b :: bs).length := Nat.min_le_right _ _
          push_cast
          omega
        · exact hc
      | err =>
        simp only [writeLoop]
        by_cases hlt : (file₀.length : Int) < w.pos
        · rw [if_pos hlt]
          by_cases ht : truncOk = true
          · rw [if_pos ht]
            refine ⟨fun _ _ => ?_, by simp [hc, ht]⟩
            show List.take (Int.toNat (file₀.length : Int)) (file₀ ++ extra) = file₀
            have hto : (Int.toNat (file₀.length : Int)) = file₀.length := by omega
            rw [hto]
            exact List.take_left _ _
          · rw [if_neg ht]
            have ht' : truncOk = false := by simpa using ht
            exact ⟨fun _ hcon => absurd hcon ht,
              iff_of_true rfl ⟨rfl, ht', hlt⟩⟩
        · rw [if_neg hlt]
          have hx : extra = [] := by
            cases extra with
            | nil => rfl
            | cons e es => exact absurd (by rw [hpos]; simp) hlt
          subst hx
          refine ⟨fun _ _ => by simp, ?_⟩
          simp [hc, hpos]

/-- Counterexample to the claim that an I/O error after partial success
marks the writer corrupt: over an empty file, `Write` of a five-byte
packet whose first syscall writes three bytes and whose second fails, with
the recovery truncate succeeding, reports failure and restores the file to
its pre-call (empty) contents — but leaves `corrupt_` clear, so a
subsequent `Close` (with `fsync` and `close` succeeding) returns success.
This is exactly the scenario of the `PartialWriteIsTruncated` test in
`recording-test.cc`. -/
theorem sampleFileWriter_partial_error_not_corrupt :
    ((SampleFileWriter.mk 0 false []).write [] [1, 2, 3, 4, 5]
        [WriteRes.ok 3, WriteRes.err] true).1 = false ∧
      ((SampleFileWriter.mk 0 false []).write [] [1, 2, 3, 4, 5]
          [WriteRes.ok 3, WriteRes.err] true).2.2 = [] ∧
      ((SampleFileWriter.mk 0 false []).write [] [1, 2, 3, 4, 5]
          [WriteRes.ok 3, WriteRes.err] true).2.1.corrupt = false ∧
      (((SampleFileWriter.mk 0 false []).write [] [1, 2, 3, 4, 5]
            [WriteRes.ok 3, WriteRes.err] true).2.1.close true true).1 = true := by
  decide

/-- **C9** (amended). For every open `SampleFileWriter` whose position
equals the file length and whose `corrupt_` flag is clear: a `Write` call
that fails reports failure and — when the recovery `ftruncate` succeeds —
leaves the file contents equal to the pre-call contents; the writer is
marked corrupt if and only if the call failed, the truncate failed, and
some bytes of the packet had been written (not, as claimed, after every
I/O error following partial success); and whenever the writer is corrupt a
subsequent `Close` reports failure. -/
theorem sampleFileWriter_write_failure (w : SampleFileWriter)
    (file pkt : List Nat) (script : List WriteRes)
    (truncOk syncOk closeOk : Bool)
    (hpos : w.pos = (file.length : Int)) (hc : w.corrupt = false) :
    ((w.write file pkt script truncOk).1 = false → truncOk = true →
        (w.write file pkt script truncOk).2.2 = file) ∧
      ((w.write file pkt script truncOk).2.1.corrupt = true ↔
        (w.write file pkt script truncOk).1 = false ∧ truncOk = false ∧
          w.pos < (w.write file pkt script truncOk).2.1.pos) ∧
      ((w.write file pkt script truncOk).2.1.corrupt = true →
        ((w.write file pkt script truncOk).2.1.close syncOk closeOk).1
          = false) := by
  have h := writeLoop_spec truncOk file script pkt w []
    (by simpa using hpos) hc
  rw [List.append_nil] at h
  have hclose : ∀ w' : SampleFileWriter, w'.corrupt = true →
      (w'.close syncOk closeOk).1 = false := by
    intro w' hw'
    simp [SampleFileWriter.close, hw']
  simp only [SampleFileWriter.write, hpos]
  cases hr : (writeLoop truncOk (file.length : Int) script pkt w file).1 with
  | true =>
    rw [hr] at h
    simp only [if_pos rfl]
    refine ⟨fun hcon => absurd hcon (by simp), ?_, ?_⟩
    · constructor
      · intro hcor
        exact absurd (h.2.mp hcor).1 (by simp)
      · intro hcon
        exact absurd hcon.1 (by simp)
    · intro hcor
      exact absurd (h.2.mp hcor).1 (by simp)
  | false =>
    rw [hr] at h
    simp only [Bool.false_eq_true, if_neg not_false]
    rw [hr]
    exact ⟨fun _ => h.1 rfl, h.2, fun hcor => hclose _ hcor⟩

/-- Witness for `sampleFileWriter_write_failure`: the hypotheses hold for
a fresh writer over the empty file, and with a script that writes one of
two bytes and then fails, with the recovery truncate also failing, the
writer ends corrupt. -/
theorem sampleFileWriter_write_failure_witness :
    (SampleFileWriter.mk 0 false []).pos
        = ((([] : List Nat).length : Nat) : Int) ∧
      (SampleFileWriter.mk 0 false []).corrupt = false ∧
      ((SampleFileWriter.mk 0 false []).write [] [1, 2]
          [WriteRes.ok 1, WriteRes.err] false).2.1.corrupt = true :=
  ⟨rfl, rfl,
    ((sampleFileWriter_write_failure (SampleFileWriter.mk 0 false []) [] [1, 2]
          [WriteRes.ok 1, WriteRes.err] false true true rfl rfl).2.1).mpr
      (by decide)⟩

/-! ### Hex formatting (`string.cc` lines 43–46, 124–134) -/

/-- `HexDigit` from `string.cc`: lowercase hex digit, `'x'` out of range. -/
def HexDigit (i : Nat) : Char :=
  if i < 16 then "0123456789abcdef".toList.getD i 'x' else 'x'

/-- Character stream of `ToHex`: two hex digits per input byte, separated
by spaces when `pad` is set (`isFirst` tracks `i > 0`). -/
def ToHexChars (pad : Bool) : List Nat → Bool → List Char
  | [], _ => []
  | b :: rest, isFirst =>
      (if pad && !isFirst then [' '] else []) ++
        [HexDigit ((b % 256) >>> 4), HexDigit ((b % 256) &&& 15)] ++
        ToHexChars pad rest false

/-- `ToHex(in, pad)` from `string.cc`; call sites that pass one argument
use the declaration's default `pad = false`. -/
def ToHex (inp : List Nat) (pad : Bool) : String :=
  String.mk (ToHexChars pad inp true)

/-! ### MP4 sample table assembly (`mp4.cc`, `mp4.h`) -/

/-- The fields of `VideoSampleEntry` (`moonfire-db.h`) that
`Mp4FileBuilder::Build` consults. -/
structure VideoSampleEntry where
  id : Int
  sha1 : List Nat
deriving DecidableEq

/-- State of `internal::Mp4SampleTablePieces` (`mp4.h` lines 100–118)
filled in by `Init`; defaults are the in-class initializers (`begin_` is
default-constructed, i.e. cleared). -/
structure Mp4SampleTablePieces where
  begin : SampleIndexIterator := SampleIndexIterator.clear
  samplePos : ByteRange := ByteRange.mk 0 0
  sampleEntryIndex : Int := -1
  sampleOffset : Int := -1
  desiredEnd90k : Int := -1
  actualEnd90k : Int := -1
  frames : Int := 0
  keyFrames : Int := 0
deriving DecidableEq

/-- The `for (; !it.done(); it.Next())` loop of
`Mp4SampleTablePieces::Init` (`mp4.cc` lines 981–1005), with fuel for
termination (each iteration consumes input, so `index length + 1`
suffices). Returns the updated pieces and the iterator as left by the
loop. -/
def mp4InitLoop (start90k end90k : Int) :
    Nat → SampleIndexIterator → Mp4SampleTablePieces →
    Mp4SampleTablePieces × SampleIndexIterator
  | 0, it, p => (p, it)
  | fuel + 1, it, p =>
    if it.done then (p, it)
    else
      let p1 :=
        if it.start90k ≤ start90k ∧ it.isKey then
          { p with
              begin := it
              samplePos := ByteRange.mk it.pos p.samplePos.rend
              frames := 0
              keyFrames := 0 }
        else p
      if it.start90k ≥ end90k then (p1, it)
      else
        mp4InitLoop start90k end90k fuel it.next
          { p1 with
              frames := p1.frames + 1
              keyFrames := if it.isKey then p1.keyFrames + 1 else p1.keyFrames
              actualEnd90k := it.end90k }

/-- `internal::Mp4SampleTablePieces::Init` (`mp4.cc` lines 956–1031).
The fast path (whole recording requested) copies the recording's cached
totals; the slow path requires the first decoded sample to be a key frame
and then scans the index. A decode error in the iterator is returned as
the error message, and finally `actual_end_90k_` is clamped to the desired
end. The `FillerFileSlice` registrations carry no state and are omitted. -/
def Mp4SampleTablePieces.Init (recording : Recording)
    (sampleEntryIndex sampleOffset start90k end90k : Int) :
    Except String Mp4SampleTablePieces :=
  let p0 : Mp4SampleTablePieces :=
    { sampleEntryIndex := sampleEntryIndex
      sampleOffset := sampleOffset
      desiredEnd90k := end90k }
  let it0 := mkSampleIndexIterator recording.videoIndex
  let recordingDuration90k := recording.endTime90k - recording.startTime90k
  if start90k = 0 ∧ end90k ≥ recordingDuration90k then
    let p :=
      { p0 with
          samplePos := ByteRange.mk p0.samplePos.rbegin recording.sampleFileBytes
          begin := it0
          frames := recording.videoSamples
          keyFrames := recording.videoSyncSamples
          actualEnd90k := recordingDuration90k }
    if it0.hasError then Except.error it0.error
    else Except.ok { p with actualEnd90k := min p.actualEnd90k p.desiredEnd90k }
  else
    if !it0.done && !it0.isKey then
      Except.error "First frame must be a key frame."
    else
      let r := mp4InitLoop start90k end90k (recording.videoIndex.length + 1) it0 p0
      let p := { r.1 with samplePos := ByteRange.mk r.1.samplePos.rbegin r.2.pos }
      if r.2.hasError then Except.error r.2.error
      else Except.ok { p with actualEnd90k := min p.actualEnd90k p.desiredEnd90k }

/-- `Mp4FileSegment` (`mp4.h` lines 120–126) with its in-class defaults
(`rel_end_90k = INT32_MAX`). -/
structure Mp4FileSegment where
  recording : Recording
  relStart90k : Int := 0
  relEnd90k : Int := 2147483647
deriving DecidableEq

/-- The per-segment loop of `Mp4FileBuilder::Build` (`mp4.cc` lines
1117–1134): checks the video sample entry id, runs `Init` with the running
1-based `sample_offset`, and accumulates `pieces.samples()` (= `frames_`).
Returns the initialized pieces per segment. -/
def Mp4FileBuilder.BuildLoop (entry : VideoSampleEntry) :
    List Mp4FileSegment → Int → Except String (List Mp4SampleTablePieces)
  | [], _ => Except.ok []
  | seg :: rest, sampleOffset =>
    if seg.recording.videoSampleEntryId ≠ entry.id then
      Except.error ("inconsistent video sample entries. builder has: " ++
        toString entry.id ++ " (sha1 " ++ ToHex entry.sha1 false ++
        ", segment has: " ++ toString seg.recording.videoSampleEntryId)
    else
      match Mp4SampleTablePieces.Init seg.recording 1 sampleOffset
          seg.relStart90k seg.relEnd90k with
      | Except.error e => Except.error e
      | Except.ok p =>
        match Mp4FileBuilder.BuildLoop entry rest (sampleOffset + p.frames) with
        | Except.error e => Except.error e
        | Except.ok ps => Except.ok (p :: ps)

/-- `Mp4FileBuilder::Build` (`mp4.cc` lines 1116–1144): the segment loop
(starting at `sample_offset = 1`), then the emptiness check; a successful
build is modelled by the list of initialized sample-table pieces. -/
def Mp4FileBuilder.Build (segments : List Mp4FileSegment)
    (entry : VideoSampleEntry) : Except String (List Mp4SampleTablePieces) :=
  match Mp4FileBuilder.BuildLoop entry segments 1 with
  | Except.error e => Except.error e
  | Except.ok ps =>
      if segments = [] then Except.error "Can't construct empty .mp4"
      else Except.ok ps

/-- On the slow path, `Init` of a recording whose first decoded sample
exists and is not a key frame fails with the fixed message, for any entry
index, offset, and requested range. -/
theorem mp4Init_error_of_nonkey (recording : Recording)
    (sei so s e : Int)
    (hslow : ¬(s = 0 ∧ e ≥ recording.endTime90k - recording.startTime90k))
    (hdone : (mkSampleIndexIterator recording.videoIndex).done = false)
    (hkey : (mkSampleIndexIterator recording.videoIndex).isKey = false) :
    Mp4SampleTablePieces.Init recording sei so s e
      = Except.error "First frame must be a key frame." := by
  simp only [Mp4SampleTablePieces.Init]
  rw [if_neg hslow]
  simp [hdone, hkey]

/-- The build loop fails whenever some segment requests a strict sub-range
of a recording whose first decoded sample is not a key frame. -/
theorem buildLoop_error_of_nonkey (entry : VideoSampleEntry)
    (recording : Recording)
    (hdone : (mkSampleIndexIterator recording.videoIndex).done = false)
    (hkey : (mkSampleIndexIterator recording.videoIndex).isKey = false) :
    ∀ (segs : List Mp4FileSegment) (off : Int),
      (∃ seg ∈ segs, seg.recording = recording ∧
        ¬(seg.relStart90k = 0 ∧
          seg.relEnd90k ≥ recording.endTime90k - recording.startTime90k)) →
      ∀ ps, Mp4FileBuilder.BuildLoop entry segs off ≠ Except.ok ps := by
  intro segs
  induction segs with
  | nil =>
    intro off hex ps
    simp at hex
  | cons s rest ih =>
    intro off hex ps hcon
    rcases hex with ⟨seg, hmem, hrec, hslow⟩
    by_cases hid : s.recording.videoSampleEntryId ≠ entry.id
    · simp only [Mp4FileBuilder.BuildLoop, if_pos hid] at hcon
      exact Except.noConfusion hcon
    · rcases List.mem_cons.mp hmem with hseg | hseg
      · subst hseg
        have hi := mp4Init_error_of_nonkey recording 1 off seg.relStart90k
          seg.relEnd90k hslow hdone hkey
        rw [← hrec] at hi
        simp only [Mp4FileBuilder.BuildLoop, if_neg hid, hi] at hcon
        exact Except.noConfusion hcon
      · cases hinit : Mp4SampleTablePieces.Init s.recording 1 off
            s.relStart90k s.relEnd90k with
        | error e =>
          simp only [Mp4FileBuilder.BuildLoop, if_neg hid, hinit] at hcon
          exact Except.noConfusion hcon
        | ok p =>
          cases hbl : Mp4FileBuilder.BuildLoop entry rest (off + p.frames) with
          | error e =>
            simp only [Mp4FileBuilder.BuildLoop, if_neg hid, hinit, hbl] at hcon
            exact Except.noConfusion hcon
          | ok psr =>
            exact ih (off + p.frames) ⟨seg, hseg, hrec, hslow⟩ psr hbl

/-- **C10.** When `Mp4SampleTablePieces::Init` takes the slow path (a
start other than 0 or an end before the recording's duration) and the
recording's index decodes a first sample that is not a key frame, `Init`
fails with exactly `First frame must be a key frame.`; consequently
`Mp4FileBuilder::Build` never assembles a file from a segment list in
which some segment requests such a sub-range of such a recording. -/
theorem mp4Init_requires_keyframe (recording : Recording)
    (sampleEntryIndex sampleOffset start90k end90k : Int)
    (hslow : ¬(start90k = 0 ∧
      end90k ≥ recording.endTime90k - recording.startTime90k))
    (hdone : (mkSampleIndexIterator recording.videoIndex).done = false)
    (hkey : (mkSampleIndexIterator recording.videoIndex).isKey = false) :
    Mp4SampleTablePieces.Init recording sampleEntryIndex sampleOffset
        start90k end90k = Except.error "First frame must be a key frame." ∧
      ∀ (segments : List Mp4FileSegment) (entry : VideoSampleEntry),
        (∃ seg ∈ segments, seg.recording = recording ∧
          ¬(seg.relStart90k = 0 ∧
            seg.relEnd90k ≥ recording.endTime90k - recording.startTime90k)) →
        ∀ ps, Mp4FileBuilder.Build segments entry ≠ Except.ok ps := by
  refine ⟨mp4Init_error_of_nonkey recording sampleEntryIndex sampleOffset
    start90k end90k hslow hdone hkey, ?_⟩
  intro segments entry hex ps hcon
  simp only [Mp4FileBuilder.Build] at hcon
  cases hbl : Mp4FileBuilder.BuildLoop entry segments 1 with
  | error e =>
    rw [hbl] at hcon
    exact Except.noConfusion hcon
  | ok psr =>
    exact buildLoop_error_of_nonkey entry recording hdone hkey segments 1
      hex psr hbl

/-- Witness for `mp4Init_requires_keyframe`: a recording whose index
encodes one non-key sample (duration 10, 5 bytes: bytes `28 0a`), with the
sub-range `[1, 5)` requested, satisfies the hypotheses and `Init` fails
with the fixed message. -/
theorem mp4Init_requires_keyframe_witness :
    (¬((1 : Int) = 0 ∧ (5 : Int) ≥
        ({ videoIndex := [40, 10] } : Recording).endTime90k -
          ({ videoIndex := [40, 10] } : Recording).startTime90k)) ∧
      (mkSampleIndexIterator [40, 10]).done = false ∧
      (mkSampleIndexIterator [40, 10]).isKey = false ∧
      Mp4SampleTablePieces.Init { videoIndex := [40, 10] } 1 1 1 5
        = Except.error "First frame must be a key frame." :=
  ⟨by decide, by decide, by decide,
    (mp4Init_requires_keyframe { videoIndex := [40, 10] } 1 1 1 5
        (by decide) (by decide) (by decide)).1⟩

/-! ### MP4 edit list (`mp4.cc` `MaybeAppendVideoEdts`, lines 610–655) -/

/-- The `Entry` struct local to `MaybeAppendVideoEdts`:
`segment_duration` and `media_time`. -/
structure ElstEntry where
  segmentDuration : Int
  mediaTime : Int
deriving DecidableEq

/-- `Entry::end() = segment_duration + media_time`. -/
def ElstEntry.entryEnd (e : ElstEntry) : Int := e.segmentDuration + e.mediaTime

/-- `Mp4SampleTablePieces::start_90k()` (`mp4.h` line 93). -/
def Mp4SampleTablePieces.start90k (p : Mp4SampleTablePieces) : Int :=
  p.begin.start90k

/-- `Mp4SampleTablePieces::end_90k()` (`mp4.h` line 94). -/
def Mp4SampleTablePieces.end90k (p : Mp4SampleTablePieces) : Int :=
  p.actualEnd90k

/-- The per-segment loop of `MaybeAppendVideoEdts` over the pairs
`(skip, keep)`, threading the entry vector and `cur_media_time`;
`entries.back()` is the last list element, extended in place when the new
media time continues it and appended to otherwise. -/
def edtsLoop : List (Int × Int) → List ElstEntry → Int → List ElstEntry
  | [], entries, _ => entries
  | (skip, keep) :: rest, entries, curMediaTime =>
    let cur := curMediaTime + skip
    let entries' :=
      match entries.getLast? with
      | some last =>
          if last.entryEnd = cur then
            entries.dropLast ++
              [{ last with segmentDuration := last.segmentDuration + keep }]
          else entries ++ [ElstEntry.mk keep cur]
      | none => entries ++ [ElstEntry.mk keep cur]
    edtsLoop rest entries' (cur + keep)

/-- `Mp4File::MaybeAppendVideoEdts` over the segments paired with their
initialized sample-table pieces: per segment,
`skip = rel_start_90k - pieces.start_90k()` and
`keep = pieces.end_90k() - rel_start_90k`; the `edts`/`elst` box is
omitted (`none`) exactly when the final entry vector is a single entry
with media time 0, and otherwise holds the entries in order. -/
def elstSkipKeep (sp : Mp4FileSegment × Mp4SampleTablePieces) : Int × Int :=
  (sp.1.relStart90k - sp.2.start90k, sp.2.end90k - sp.1.relStart90k)

def MaybeAppendVideoEdts
    (segments : List (Mp4FileSegment × Mp4SampleTablePieces)) :
    Option (List ElstEntry) :=
  let entries := edtsLoop (segments.map elstSkipKeep) [] 0
  if entries.length = 1 ∧ (entries.headD (ElstEntry.mk 0 0)).mediaTime = 0 then
    none
  else some entries

/-- The failure of the box-omission condition: more than one entry, or a
first entry with nonzero media time. -/
def elstInv (entries : List ElstEntry) : Prop :=
  ¬(entries.length = 1 ∧ (entries.headD (ElstEntry.mk 0 0)).mediaTime = 0)

/-- Non-contiguity of consecutive entries: the previous entry's media end
is strictly before the next entry's media time. -/
def elstSep (a b : ElstEntry) : Prop := a.entryEnd < b.mediaTime

/-- Segments with zero skip only ever extend the single entry in place. -/
theorem edtsLoop_all_zero :
    ∀ (L : List (Int × Int)) (d : Int), (∀ p ∈ L, p.1 = 0) →
      edtsLoop L [ElstEntry.mk d 0] d
        = [ElstEntry.mk (d + (L.map Prod.snd).sum) 0] := by
  intro L
  induction L with
  | nil =>
    intro d h
    simp [edtsLoop]
  | cons p rest ih =>
    intro d h
    obtain ⟨s, k⟩ := p
    have hs : s = 0 := h (s, k) (List.mem_cons_self _ _)
    subst hs
    simp only [edtsLoop, List.getLast?_singleton]
    rw [if_pos (by simp [ElstEntry.entryEnd])]
    simp only [List.dropLast_single, List.nil_append]
    have hcur : d + 0 + k = d + k := by ring
    rw [hcur, ih (d + k) (fun q hq => h q (List.mem_cons_of_mem _ hq))]
    simp [add_assoc]

/-- Once the entry vector can no longer be a single zero-media-time entry,
it stays that way under every further loop step. -/
theorem edtsLoop_inv :
    ∀ (L : List (Int × Int)) (entries : List ElstEntry) (cur : Int),
      entries ≠ [] → elstInv entries →
      edtsLoop L entries cur ≠ [] ∧ elstInv (edtsLoop L entries cur) := by
  intro L
  induction L with
  | nil =>
    intro entries cur hne hinv
    exact ⟨hne, hinv⟩
  | cons p rest ih =>
    intro entries cur hne hinv
    obtain ⟨s, k⟩ := p
    simp only [edtsLoop]
    cases hl : entries.getLast? with
    | none => exact absurd (by simpa using hl) hne
    | some last =>
      dsimp only
      by_cases hm : last.entryEnd = cur + s
      · rw [if_pos hm]
        cases entries with
        | nil => exact absurd rfl hne
        | cons a t =>
          cases t with
          | nil =>
            have ha : a = last := by
              simpa [List.getLast?_singleton] using hl
            subst ha
            apply ih
            · simp
            · have hMT : a.mediaTime ≠ 0 := by
                intro h0
                exact hinv (by simp [elstInv, h0])
              simp [elstInv, hMT]
          | cons b t2 =>
            apply ih
            · simp
            · have hlen : ((a :: b :: t2).dropLast ++
                  [{ last with segmentDuration := last.segmentDuration + k }]).length
                  = (a :: b :: t2).length := by
                simp [List.length_dropLast]
              intro hcon
              rw [hlen] at hcon
              simp at hcon
      · rw [if_neg hm]
        apply ih
        · simp
        · intro hcon
          have hlen : (entries ++ [ElstEntry.mk k (cur + s)]).length
              = entries.length + 1 := by simp
          rw [hlen] at hcon
          have : entries.length = 0 := by omega
          exact hne (List.length_eq_zero.mp this)


/-- From a single zero-media-time entry, a later segment with nonzero skip
forces a second entry (or a nonzero first media time) for good. -/
theorem edtsLoop_nonzero_from_zero :
    ∀ (L : List (Int × Int)) (d : Int), (∃ p ∈ L, p.1 ≠ 0) →
      edtsLoop L [ElstEntry.mk d 0] d ≠ [] ∧
        elstInv (edtsLoop L [ElstEntry.mk d 0] d) := by
  intro L
  induction L with
  | nil =>
    intro d h
    simp at h
  | cons p rest ih =>
    intro d h
    obtain ⟨s, k⟩ := p
    by_cases hs : s = 0
    · subst hs
      simp only [edtsLoop, List.getLast?_singleton]
      rw [if_pos (by simp [ElstEntry.entryEnd])]
      simp only [List.dropLast_single, List.nil_append]
      have hcur : d + 0 + k = d + k := by ring
      rw [hcur]
      rcases h with ⟨q, hq, hqne⟩
      rcases List.mem_cons.mp hq with rfl | hq2
      · exact absurd rfl hqne
      · exact ih (d + k) ⟨q, hq2, hqne⟩
    · simp only [edtsLoop, List.getLast?_singleton]
      rw [if_neg (by simp [ElstEntry.entryEnd]; omega)]
      apply edtsLoop_inv
      · simp
      · intro hcon
        simp at hcon

/-- Characterization of the omission condition: starting from an empty
entry vector and media time 0 over a non-empty pair list, the final vector
is a single zero-media-time entry exactly when every skip is zero. -/
theorem edtsLoop_none_iff (L : List (Int × Int)) (hne : L ≠ []) :
    ((edtsLoop L [] 0).length = 1 ∧
        ((edtsLoop L [] 0).headD (ElstEntry.mk 0 0)).mediaTime = 0) ↔
      ∀ p ∈ L, p.1 = 0 := by
  cases L with
  | nil => exact absurd rfl hne
  | cons p rest =>
    obtain ⟨s, k⟩ := p
    simp only [edtsLoop, List.getLast?_nil, List.nil_append, zero_add]
    constructor
    · intro hcond q hq
      by_cases hs : s = 0
      · rcases List.mem_cons.mp hq with rfl | hq2
        · exact hs
        · by_contra hqne
          subst hs
          have h5 := edtsLoop_nonzero_from_zero rest k ⟨q, hq2, hqne⟩
          exact h5.2 (by
            have : (ElstEntry.mk k (0 : Int)) = ElstEntry.mk k 0 := rfl
            simpa using hcond)
      · exfalso
        have hinv1 : elstInv [ElstEntry.mk k s] := by
          intro hcon
          exact hs (by simpa using hcon.2)
        have h2 := edtsLoop_inv rest [ElstEntry.mk k s] (s + k) (by simp) hinv1
        exact h2.2 hcond
    · intro hall
      have hs : s = 0 := hall (s, k) (List.mem_cons_self _ _)
      subst hs
      simp only [zero_add]
      rw [edtsLoop_all_zero rest k (fun q hq => hall q (List.mem_cons_of_mem _ hq))]
      simp

/-- Invariant run of the loop from a non-empty entry vector: under the
`DCHECK`ed preconditions (skip ≥ 0, keep > 0), the vector stays non-empty,
its consecutive entries stay strictly non-contiguous (everything
contiguous is merged), its last entry always ends at the running media
time, and the summed segment durations grow by exactly the keeps. -/
theorem edtsLoop_chain_sum :
    ∀ (L : List (Int × Int)) (entries : List ElstEntry) (cur : Int),
      (∀ p ∈ L, 0 ≤ p.1 ∧ 0 < p.2) →
      entries ≠ [] →
      (∀ e, entries.getLast? = some e → e.entryEnd = cur) →
      List.Chain' elstSep entries →
      edtsLoop L entries cur ≠ [] ∧
        List.Chain' elstSep (edtsLoop L entries cur) ∧
        (List.map ElstEntry.segmentDuration (edtsLoop L entries cur)).sum
          = (List.map ElstEntry.segmentDuration entries).sum
            + (List.map Prod.snd L).sum := by
  intro L
  induction L with
  | nil =>
    intro entries cur hd hne hlast hchain
    simpa [edtsLoop] using ⟨hne, hchain⟩
  | cons p rest ih =>
    intro entries cur hd hne hlast hchain
    obtain ⟨s, k⟩ := p
    have hsk : 0 ≤ s ∧ 0 < k := hd (s, k) (List.mem_cons_self _ _)
    have hdrest : ∀ q ∈ rest, 0 ≤ q.1 ∧ 0 < q.2 :=
      fun q hq => hd q (List.mem_cons_of_mem _ hq)
    simp only [edtsLoop]
    cases hl : entries.getLast? with
    | none => exact absurd (by simpa using hl) hne
    | some last =>
      dsimp only
      have hlastEq : last.entryEnd = cur := hlast last hl
      have hsplit : entries.dropLast ++ [entries.getLast hne] = entries :=
        List.dropLast_append_getLast hne
      have hlast2 : entries.getLast hne = last := by
        have := List.getLast?_eq_getLast entries hne
        rw [hl] at this
        exact (Option.some.injEq _ _ ▸ this.symm)
      by_cases hm : last.entryEnd = cur + s
      · rw [if_pos hm]
        have hres := ih
          (entries.dropLast ++
            [{ last with segmentDuration := last.segmentDuration + k }])
          (cur + s + k) hdrest (by simp)
          (by
            intro e he
            rw [List.getLast?_concat] at he
            cases he
            simp only [ElstEntry.entryEnd] at hm ⊢
            omega)
          (by
            rw [← hsplit, hlast2] at hchain
            rcases List.chain'_append.mp hchain with ⟨h1, _, h3⟩
            refine List.chain'_append.mpr ⟨h1, List.chain'_singleton _, ?_⟩
            intro x hx y hy
            simp only [List.head?_cons, Option.mem_def, Option.some.injEq] at hy
            subst hy
            have := h3 x hx last (by simp)
            simpa [elstSep] using this)
        refine ⟨hres.1, hres.2.1, ?_⟩
        rw [hres.2.2]
        have hsum : (List.map ElstEntry.segmentDuration
            (entries.dropLast ++
              [{ last with segmentDuration := last.segmentDuration + k }])).sum
            = (List.map ElstEntry.segmentDuration entries).sum + k := by
          conv_rhs => rw [← hsplit, hlast2]
          simp
          ring
        rw [hsum]
        simp only [List.map_cons, List.sum_cons]
        ring
      · rw [if_neg hm]
        have hs0 : s ≠ 0 := by
          intro h0
          subst h0
          exact hm (by omega)
        have hspos : 0 < s := lt_of_le_of_ne hsk.1 (Ne.symm hs0)
        have hres := ih (entries ++ [ElstEntry.mk k (cur + s)])
          (cur + s + k) hdrest (by simp)
          (by
            intro e he
            rw [List.getLast?_concat] at he
            cases he
            simp only [ElstEntry.entryEnd]
            ring)
          (by
            refine List.chain'_append.mpr ⟨hchain, List.chain'_singleton _, ?_⟩
            intro x hx y hy
            simp only [List.head?_cons, Option.mem_def, Option.some.injEq] at hy
            subst hy
            have hx2 : x.entryEnd = cur := hlast x hx
            simp only [elstSep, hx2]
            omega)
        refine ⟨hres.1, hres.2.1, ?_⟩
        rw [hres.2.2]
        simp only [List.map_append, List.sum_append, List.map_cons,
          List.sum_cons, List.map_nil, List.sum_nil]
        ring

/-- The run from the empty entry vector over a non-empty list: the result
is maximally coalesced and its durations sum to the keeps. -/
theorem edtsLoop_from_nil (L : List (Int × Int)) (hne : L ≠ [])
    (hd : ∀ p ∈ L, 0 ≤ p.1 ∧ 0 < p.2) :
    List.Chain' elstSep (edtsLoop L [] 0) ∧
      (List.map ElstEntry.segmentDuration (edtsLoop L [] 0)).sum
        = (L.map Prod.snd).sum := by
  cases L with
  | nil => exact absurd rfl hne
  | cons p L2 =>
    obtain ⟨s, k⟩ := p
    simp only [edtsLoop, List.getLast?_nil, List.nil_append]
    have h := edtsLoop_chain_sum L2 [ElstEntry.mk k (0 + s)] (0 + s + k)
      (fun q hq => hd q (List.mem_cons_of_mem _ hq)) (by simp)
      (by
        intro e he
        simp only [List.getLast?_singleton, Option.some.injEq] at he
        subst he
        simp only [ElstEntry.entryEnd]
        ring)
      (List.chain'_singleton _)
    refine ⟨h.2.1, ?_⟩
    rw [h.2.2]
    simp

/-- **C8.** For every non-empty segment list satisfying the loop's
`DCHECK`s (per segment, the pre-trim skip `rel_start_90k - start_90k()` is
non-negative and the kept span `end_90k() - rel_start_90k` is positive):
the `edts`/`elst` box is omitted if and only if every segment's pre-trim
skip is zero (equivalently, emitted iff some skip is non-zero); when
emitted, the entries are maximally coalesced — consecutive entries are
strictly non-contiguous, so consecutive segments with contiguous media
times were merged into one entry — and the entry durations sum to the
total kept presentation span; in particular a single segment whose
included key frame starts exactly at `rel_start_90k` produces no edit
list. -/
theorem maybeAppendVideoEdts_spec
    (segments : List (Mp4FileSegment × Mp4SampleTablePieces))
    (hne : segments ≠ [])
    (hd : ∀ sp ∈ segments, 0 ≤ sp.1.relStart90k - sp.2.start90k ∧
      0 < sp.2.end90k - sp.1.relStart90k) :
    (MaybeAppendVideoEdts segments = none ↔
        ∀ sp ∈ segments, sp.1.relStart90k = sp.2.start90k) ∧
      (∀ entries, MaybeAppendVideoEdts segments = some entries →
        List.Chain' elstSep entries ∧
          (List.map ElstEntry.segmentDuration entries).sum
            = (segments.map fun sp => sp.2.end90k - sp.1.relStart90k).sum) ∧
      (∀ sp, segments = [sp] → sp.1.relStart90k = sp.2.start90k →
        MaybeAppendVideoEdts segments = none) := by
  have hLne : segments.map elstSkipKeep ≠ [] := by simpa using hne
  have hdl : ∀ p ∈ segments.map elstSkipKeep, 0 ≤ p.1 ∧ 0 < p.2 := by
    intro p hp
    rcases List.mem_map.mp hp with ⟨sp, hsp, rfl⟩
    exact hd sp hsp
  have hzero : (∀ p ∈ segments.map elstSkipKeep, p.1 = 0) ↔
      ∀ sp ∈ segments, sp.1.relStart90k = sp.2.start90k := by
    constructor
    · intro h sp hsp
      have := h (elstSkipKeep sp) (List.mem_map_of_mem _ hsp)
      simp only [elstSkipKeep] at this
      omega
    · intro h p hp
      rcases List.mem_map.mp hp with ⟨sp, hsp, rfl⟩
      simp only [elstSkipKeep]
      have := h sp hsp
      omega
  have hcondiff : MaybeAppendVideoEdts segments = none ↔
      ((edtsLoop (segments.map elstSkipKeep) [] 0).length = 1 ∧
        ((edtsLoop (segments.map elstSkipKeep) [] 0).headD
          (ElstEntry.mk 0 0)).mediaTime = 0) := by
    simp only [MaybeAppendVideoEdts]
    by_cases hcond : (edtsLoop (segments.map elstSkipKeep) [] 0).length = 1 ∧
        ((edtsLoop (segments.map elstSkipKeep) [] 0).headD
          (ElstEntry.mk 0 0)).mediaTime = 0
    · rw [if_pos hcond]
      simpa using hcond
    · rw [if_neg hcond]
      simpa using hcond
  have hmain := hcondiff.trans
    ((edtsLoop_none_iff (segments.map elstSkipKeep) hLne).trans hzero)
  refine ⟨hmain, ?_, fun sp hseg hstart => hmain.mpr (by
    rw [hseg]
    intro q hq
    rcases List.mem_singleton.mp hq with rfl
    exact hstart)⟩
  intro entries hsome
  have hentries : entries = edtsLoop (segments.map elstSkipKeep) [] 0 := by
    simp only [MaybeAppendVideoEdts] at hsome
    by_cases hcond : (edtsLoop (segments.map elstSkipKeep) [] 0).length = 1 ∧
        ((edtsLoop (segments.map elstSkipKeep) [] 0).headD
          (ElstEntry.mk 0 0)).mediaTime = 0
    · rw [if_pos hcond] at hsome
      exact Option.noConfusion hsome
    · rw [if_neg hcond] at hsome
      exact (Option.some.inj hsome).symm
  subst hentries
  have h := edtsLoop_from_nil (segments.map elstSkipKeep) hLne hdl
  refine ⟨h.1, ?_⟩
  rw [h.2, List.map_map]
  rfl

/-- A one-segment list whose pieces start exactly at the requested start
(zero skip, seven units kept). -/
def elstWitnessSegment : Mp4FileSegment × Mp4SampleTablePieces :=
  ({ recording := {}
     relStart90k := 2 },
   { begin := { SampleIndexIterator.clear with start90k := 2 }
     actualEnd90k := 9 })

/-- Witness for `maybeAppendVideoEdts_spec`: the hypotheses hold for the
one-segment list above, and no edit list is produced for it. -/
theorem maybeAppendVideoEdts_spec_witness :
    ([elstWitnessSegment] : List (Mp4FileSegment × Mp4SampleTablePieces)) ≠ [] ∧
      (∀ sp ∈ [elstWitnessSegment], 0 ≤ sp.1.relStart90k - sp.2.start90k ∧
        0 < sp.2.end90k - sp.1.relStart90k) ∧
      MaybeAppendVideoEdts [elstWitnessSegment] = none :=
  ⟨by simp, by decide,
    (maybeAppendVideoEdts_spec [elstWitnessSegment] (by simp) (by decide)).2.2
      elstWitnessSegment rfl (by decide)⟩

/-! ### Virtual MP4 ETag (`mp4.cc` lines 109, 536–550) -/

/-- `kFormatVersion` (`mp4.cc` line 109): the single byte `0x01`. -/
def kFormatVersion : List Nat := [1]

/-- The hashing interface of `Digest` (`crypto.h`) as byte accumulation;
the SHA-1 compression itself stays an abstract parameter of the theorems. -/
structure Digest where
  bytes : List Nat
deriving DecidableEq

/-- `Digest::SHA1()`: a fresh digest. -/
def Digest.sha1Init : Digest := ⟨[]⟩

/-- `Digest::Update`. -/
def Digest.update (d : Digest) (b : List Nat) : Digest := ⟨d.bytes ++ b⟩

/-- `Digest::Finalize`, with the hash function `sha1` abstract. -/
def Digest.finalize (sha1 : List Nat → List Nat) (d : Digest) : List Nat :=
  sha1 d.bytes

/-- Modelled from the spec: `Append64` (declared in a header not present
in this snapshot; the spec gives its effect as `u64_be`) appends the
big-endian 8-byte encoding of the 64-bit value to `out`. -/
def Append64 (x : Int) (out : List Nat) : List Nat :=
  let v : Nat := (x % (2 ^ 64 : Int)).toNat
  out ++ [v >>> 56 % 256, v >>> 48 % 256, v >>> 40 % 256, v >>> 32 % 256,
    v >>> 24 % 256, v >>> 16 % 256, v >>> 8 % 256, v % 256]

/-- The bytes of the ASCII string `":ts:"`. -/
def tsMarker : List Nat := [58, 116, 115, 58]

/-- The per-segment digest updates of the etag loop (`mp4.cc` lines
543–548): for each segment, `segment_times` (the begin then end offsets of
`pieces.sample_pos()` via `Append64`) and then the recording's
`sample_file_sha1`. -/
def mp4EtagDigestLoop (d : Digest)
    (segments : List (Mp4FileSegment × Mp4SampleTablePieces)) : Digest :=
  segments.foldl
    (fun d sp =>
      (d.update (Append64 sp.2.samplePos.rend
        (Append64 sp.2.samplePos.rbegin []))).update
        sp.1.recording.sampleFileSha1)
    d

/-- The etag computation of the `Mp4File` constructor (`mp4.cc` lines
536–550): version byte, optional `":ts:"`, the per-segment loop, then
`"\"" + ToHex(digest) + "\""`. -/
def mp4Etag (sha1 : List Nat → List Nat) (includeTs : Bool)
    (segments : List (Mp4FileSegment × Mp4SampleTablePieces)) : String :=
  let d0 := Digest.sha1Init.update kFormatVersion
  let d1 := if includeTs then d0.update tsMarker else d0
  let d2 := mp4EtagDigestLoop d1 segments
  "\"" ++ ToHex (Digest.finalize sha1 d2) false ++ "\""

/-- The projection of a segment that the etag reads: its sample-file byte
range and the recording's SHA-1. -/
def mp4EtagKey (sp : Mp4FileSegment × Mp4SampleTablePieces) :
    ByteRange × List Nat :=
  (sp.2.samplePos, sp.1.recording.sampleFileSha1)

/-- Byte contribution of one segment key. -/
def mp4EtagKeyBytes (k : ByteRange × List Nat) : List Nat :=
  Append64 k.1.rbegin [] ++ Append64 k.1.rend [] ++ k.2

/-- The spec's etag formula, following the spec's words for comparison
with the source-derived `mp4Etag`: a double quote, the lowercase hex SHA-1
of `0x01`, then `":ts:"` exactly when subtitles are enabled, then per
segment `u64_be(begin) u64_be(end) sample_file_sha1`, then a closing
double quote. -/
def mp4EtagSpec (sha1 : List Nat → List Nat) (includeTs : Bool)
    (segments : List (Mp4FileSegment × Mp4SampleTablePieces)) : String :=
  "\"" ++
    ToHex (sha1 ([1] ++ (if includeTs then [58, 116, 115, 58] else []) ++
      (segments.map fun sp =>
        Append64 sp.2.samplePos.rbegin [] ++ Append64 sp.2.samplePos.rend [] ++
          sp.1.recording.sampleFileSha1).flatten)) false ++
    "\""

/-- Appending with `Append64` is appending its 8-byte block. -/
theorem append64_eq (x : Int) (out : List Nat) :
    Append64 x out = out ++ Append64 x [] := by
  simp [Append64]

/-- The digest fold accumulates exactly the per-segment byte blocks. -/
theorem mp4EtagDigestLoop_bytes
    (segments : List (Mp4FileSegment × Mp4SampleTablePieces)) :
    ∀ d : Digest,
      (mp4EtagDigestLoop d segments).bytes
        = d.bytes ++ (segments.map (fun sp => mp4EtagKeyBytes (mp4EtagKey sp))).flatten := by
  induction segments with
  | nil =>
    intro d
    simp [mp4EtagDigestLoop]
  | cons sp rest ih =>
    intro d
    simp only [mp4EtagDigestLoop, List.foldl_cons] at ih ⊢
    rw [ih]
    simp only [Digest.update, mp4EtagKeyBytes, mp4EtagKey, List.map_cons,
      List.flatten_cons]
    rw [append64_eq sp.2.samplePos.rend]
    simp [List.append_assoc]

/-- **C7.** The assembled file's `etag()` equals the spec formula: a
double-quote, the lowercase hex SHA-1 of the version byte `0x01`, then the
four bytes `":ts:"` exactly when the subtitle track is enabled, then for
each segment in order the big-endian 64-bit begin and end offsets of its
sample-file range followed by the recording's `sample_file_sha1`, then a
closing double-quote; moreover the etag depends only on the subtitle flag
and the per-segment (byte range, SHA-1) data, so two assemblies of equal
segment lists produce identical ETags. -/
theorem mp4Etag_spec (sha1 : List Nat → List Nat) (includeTs : Bool)
    (segments : List (Mp4FileSegment × Mp4SampleTablePieces)) :
    mp4Etag sha1 includeTs segments = mp4EtagSpec sha1 includeTs segments ∧
      ∀ segments2 : List (Mp4FileSegment × Mp4SampleTablePieces),
        segments.map mp4EtagKey = segments2.map mp4EtagKey →
        mp4Etag sha1 includeTs segments = mp4Etag sha1 includeTs segments2 := by
  have heq : ∀ segs : List (Mp4FileSegment × Mp4SampleTablePieces),
      mp4Etag sha1 includeTs segs = mp4EtagSpec sha1 includeTs segs := by
    intro segs
    simp only [mp4Etag, mp4EtagSpec, Digest.finalize]
    rw [mp4EtagDigestLoop_bytes]
    have hd1 : (if includeTs then
          (Digest.sha1Init.update kFormatVersion).update tsMarker
        else Digest.sha1Init.update kFormatVersion).bytes
        = [1] ++ (if includeTs then [58, 116, 115, 58] else []) := by
      cases includeTs <;>
        simp [Digest.update, Digest.sha1Init, kFormatVersion, tsMarker]
    rw [hd1]
    rfl
  refine ⟨heq segments, ?_⟩
  intro segments2 hkey
  rw [heq segments, heq segments2]
  simp only [mp4EtagSpec]
  congr 3
  have h1 : ∀ segs : List (Mp4FileSegment × Mp4SampleTablePieces),
      (segs.map fun sp =>
        Append64 sp.2.samplePos.rbegin [] ++ Append64 sp.2.samplePos.rend [] ++
          sp.1.recording.sampleFileSha1)
        = (segs.map mp4EtagKey).map mp4EtagKeyBytes := by
    intro segs
    rw [List.map_map]
    rfl
  rw [h1, h1, hkey]

/-- A segment whose etag-relevant data is fixed while `rel_start_90k`
varies. -/
def etagWitnessSeg (rs : Int) : Mp4FileSegment × Mp4SampleTablePieces :=
  ({ recording := { sampleFileSha1 := [7] }
     relStart90k := rs },
   { samplePos := ByteRange.mk 0 5 })

/-- Witness for `mp4Etag_spec`: two one-segment lists that agree on the
etag-relevant data (but differ in `rel_start_90k`) produce the same etag,
with the hash instantiated as the identity. -/
theorem mp4Etag_spec_witness :
    [etagWitnessSeg 0].map mp4EtagKey = [etagWitnessSeg 3].map mp4EtagKey ∧
      mp4Etag (fun l => l) false [etagWitnessSeg 0]
        = mp4Etag (fun l => l) false [etagWitnessSeg 3] :=
  ⟨rfl, (mp4Etag_spec (fun l => l) false [etagWitnessSeg 0]).2
    [etagWitnessSeg 3] rfl⟩

/-! ### Metadata database (`moonfire-db.cc`, `moonfire-db.h`) -/

/-- `ReservationState::kWriting` (`moonfire-db.h`). -/
def kWriting : Int := 0

/-- `ReservationState::kDeleting` (`moonfire-db.h`). -/
def kDeleting : Int := 1

/-- One row of the `reserved_sample_files` table (columns `uuid`,
`state`); UUIDs are modelled as naturals. -/
structure ReservedRow where
  uuid : Nat
  state : Int
deriving DecidableEq

/-- One row of the `recording` table, with the columns bound by
`insert_recording_stmt_` plus the rowid `id`. -/
structure RecordingRow where
  id : Int
  cameraId : Int
  sampleFileBytes : Int
  startTime90k : Int
  duration90k : Int
  localTimeDelta90k : Int
  videoSamples : Int
  videoSyncSamples : Int
  videoSampleEntryId : Int
  sampleFileUuid : Nat
  sampleFileSha1 : List Nat
  videoIndex : List Nat
deriving DecidableEq

/-- The cached per-camera aggregates of `CameraData`
(`moonfire-db.cc`). -/
structure CameraData where
  id : Int
  minStartTime90k : Int
  maxEndTime90k : Int
  totalDuration90k : Int
  totalSampleFileBytes : Int
deriving DecidableEq

/-- The state of `MoonfireDatabase` relevant to recording insertion and
listing: the two tables, the in-memory camera map (an association list
keyed by camera id), and the next rowid (`last_insert_rowid`). -/
structure MoonfireDatabase where
  reserved : List ReservedRow
  recordings : List RecordingRow
  camerasById : List (Int × CameraData)
  nextRowid : Int
deriving DecidableEq

/-- `MoonfireDatabase::InsertRecording` (`moonfire-db.cc` lines 550–636).
Checks run in source order: the id must be unset, the end must not
precede the start, the camera must exist. Then in one transaction the
delete statement `delete from reserved_sample_files where uuid = :uuid`
removes every reservation with that uuid — with no condition on `state` —
and the run fails (rolling back to the snapshot) unless exactly one row
was deleted; the recording row is inserted and committed (the in-memory
insert and commit cannot fail in this model), and afterwards the id is
assigned and the camera's cached aggregates are updated. Failure returns
the untouched snapshot. -/
def MoonfireDatabase.insertRecording (db : MoonfireDatabase) (r : Recording) :
    MoonfireDatabase × Except String Recording :=
  if r.id ≠ -1 then
    (db, Except.error ("recording already has id " ++ toString r.id))
  else if r.endTime90k < r.startTime90k then
    (db, Except.error ("end time " ++ toString r.endTime90k ++
      " must be >= start time " ++ toString r.startTime90k))
  else
    match db.camerasById.lookup r.cameraId with
    | none => (db, Except.error ("no camera with id " ++ toString r.cameraId))
    | some cd =>
      let remaining := db.reserved.filter fun x =>
        decide (x.uuid ≠ r.sampleFileUuid)
      let changes := db.reserved.length - remaining.length
      if changes ≠ 1 then
        (db, Except.error ("uuid " ++ toString r.sampleFileUuid ++
          " is not reserved"))
      else
        let row : RecordingRow :=
          { id := db.nextRowid
            cameraId := r.cameraId
            sampleFileBytes := r.sampleFileBytes
            startTime90k := r.startTime90k
            duration90k := r.endTime90k - r.startTime90k
            localTimeDelta90k := r.localTime90k - r.startTime90k
            videoSamples := r.videoSamples
            videoSyncSamples := r.videoSyncSamples
            videoSampleEntryId := r.videoSampleEntryId
            sampleFileUuid := r.sampleFileUuid
            sampleFileSha1 := r.sampleFileSha1
            videoIndex := r.videoIndex }
        let cd2 : CameraData :=
          { cd with
              minStartTime90k :=
                if cd.minStartTime90k = -1 ∨ cd.minStartTime90k > r.startTime90k
                then r.startTime90k else cd.minStartTime90k
              maxEndTime90k :=
                if cd.maxEndTime90k = -1 ∨ cd.maxEndTime90k < r.endTime90k
                then r.endTime90k else cd.maxEndTime90k
              totalDuration90k :=
                cd.totalDuration90k + (r.endTime90k - r.startTime90k)
              totalSampleFileBytes :=
                cd.totalSampleFileBytes + r.sampleFileBytes }
        ({ reserved := remaining
           recordings := db.recordings ++ [row]
           camerasById := db.camerasById.map fun p =>
             if p.1 = r.cameraId then (p.1, cd2) else p
           nextRowid := db.nextRowid + 1 },
         Except.ok { r with id := db.nextRowid })

/-- `ListOldestSampleFilesRow` (`moonfire-db.h` lines 127–134) with its
in-class `-1` defaults. -/
structure ListOldestSampleFilesRow where
  cameraId : Int := -1
  recordingId : Int := -1
  sampleFileUuid : Nat := 0
  startTime90k : Int := -1
  duration90k : Int := -1
  sampleFileBytes : Int := -1
deriving DecidableEq

/-- The row loop of `MoonfireDatabase::ListOldestSampleFiles`
(`moonfire-db.cc` lines 653–668): the single `row` variable declared
before the loop is threaded through, and each iteration assigns
`camera_id`, `recording_id`, `sample_file_uuid`, `duration_90k` and
`sample_file_bytes` from the statement's columns — `start_time_90k` is
never assigned (the statement does not select it). -/
def listOldestLoop (cameraId : Int) :
    List RecordingRow → ListOldestSampleFilesRow →
    List ListOldestSampleFilesRow
  | [], _ => []
  | rr :: rest, row =>
      let row2 := { row with
        cameraId := cameraId
        recordingId := rr.id
        sampleFileUuid := rr.sampleFileUuid
        duration90k := rr.duration90k
        sampleFileBytes := rr.sampleFileBytes }
      row2 :: listOldestLoop cameraId rest row2

/-- `MoonfireDatabase::ListOldestSampleFiles` (`moonfire-db.cc` lines
638–672), with the camera given by id and the callback always continuing
(the produced rows are returned in order): the statement selects the
camera's recordings ordered by `start_time_90k`. -/
def MoonfireDatabase.listOldestSampleFiles (db : MoonfireDatabase)
    (cameraId : Int) : List ListOldestSampleFilesRow :=
  let recs := db.recordings.filter fun rr => decide (rr.cameraId = cameraId)
  let sorted := recs.mergeSort fun a b =>
    decide (a.startTime90k ≤ b.startTime90k)
  listOldestLoop cameraId sorted {}

/-- The loop emits one row per recording, copying every selected column
and leaving `start_time_90k` at whatever the threaded row held. -/
theorem listOldestLoop_eq (cameraId : Int) :
    ∀ (rs : List RecordingRow) (row : ListOldestSampleFilesRow),
      listOldestLoop cameraId rs row = rs.map fun rr =>
        ListOldestSampleFilesRow.mk cameraId rr.id rr.sampleFileUuid
          row.startTime90k rr.duration90k rr.sampleFileBytes := by
  intro rs
  induction rs with
  | nil =>
    intro row
    simp [listOldestLoop]
  | cons rr rest ih =>
    intro row
    simp only [listOldestLoop, List.map_cons, List.cons.injEq]
    exact ⟨trivial, ih _⟩

/-- Counterexample data for the listing claim: one camera with one
recording whose `start_time_90k` is 5. -/
def c6Db : MoonfireDatabase :=
  { reserved := []
    recordings := [{ id := 7
                     cameraId := 5
                     sampleFileBytes := 100
                     startTime90k := 5
                     duration90k := 10
                     localTimeDelta90k := 0
                     videoSamples := 1
                     videoSyncSamples := 1
                     videoSampleEntryId := 1
                     sampleFileUuid := 9
                     sampleFileSha1 := []
                     videoIndex := [] }]
    camerasById := [(5, CameraData.mk 5 5 15 10 100)]
    nextRowid := 8 }

/-- Counterexample to the claim that each listed row carries the
recording's `start_time_90k`: the camera's single recording starts at 5,
but the row delivered to the callback has `start_time_90k = -1` (the
never-assigned sentinel), while its other columns are filled in. -/
theorem listOldestSampleFiles_sentinel_counterexample :
    (c6Db.recordings.map fun rr => rr.startTime90k) = [5] ∧
      (c6Db.listOldestSampleFiles 5).map (fun row => row.startTime90k)
        = [-1] ∧
      (c6Db.listOldestSampleFiles 5).map (fun row => row.recordingId)
        = [7] := by
  refine ⟨rfl, ?_, ?_⟩ <;>
    simp [MoonfireDatabase.listOldestSampleFiles, c6Db, listOldestLoop]

/-- **C6** (amended). For every camera, `ListOldestSampleFiles` invokes
its callback once per recording of that camera, in ascending
`start_time_90k` order, and each row carries the recording's
`recording_id`, `sample_file_uuid`, `duration_90k` and
`sample_file_bytes` — but `start_time_90k` is the constant `-1` sentinel
(the statement never selects it), not the recording row's value as
claimed. -/
theorem listOldestSampleFiles_spec (db : MoonfireDatabase)
    (cameraId : Int) :
    ∃ sorted : List RecordingRow,
      List.Perm sorted
          (db.recordings.filter fun rr => decide (rr.cameraId = cameraId)) ∧
        List.Pairwise (fun a b => a.startTime90k ≤ b.startTime90k) sorted ∧
        db.listOldestSampleFiles cameraId = sorted.map fun rr =>
          ListOldestSampleFilesRow.mk cameraId rr.id rr.sampleFileUuid (-1)
            rr.duration90k rr.sampleFileBytes := by
  refine ⟨(db.recordings.filter fun rr =>
      decide (rr.cameraId = cameraId)).mergeSort fun a b =>
      decide (a.startTime90k ≤ b.startTime90k),
    List.mergeSort_perm _ _, ?_, ?_⟩
  · have h := @List.sorted_mergeSort RecordingRow
      (fun (a b : RecordingRow) => decide (a.startTime90k ≤ b.startTime90k))
      (fun a b c hab hbc => by
        simp only [decide_eq_true_eq] at hab hbc ⊢
        omega)
      (fun a b => by
        simp only [Bool.or_eq_true, decide_eq_true_eq]
        omega)
      (db.recordings.filter fun rr => decide (rr.cameraId = cameraId))
    exact h.imp fun hx => by simpa using hx
  · simp only [MoonfireDatabase.listOldestSampleFiles]
    rw [listOldestLoop_eq]

/-- Splitting a list's length by a predicate and its negation. -/
theorem length_filter_add_length_filter_not {α : Type} (l : List α)
    (p : α → Bool) :
    (l.filter p).length + (l.filter fun a => !p a).length = l.length := by
  induction l with
  | nil => simp
  | cons a t ih =>
    cases h : p a <;> simp [List.filter_cons, h] <;> omega

/-- Looking up a key after replacing its association. -/
theorem lookup_map_replace (k : Int) (cd2 : CameraData) :
    ∀ (l : List (Int × CameraData)) (cd0 : CameraData),
      l.lookup k = some cd0 →
      (l.map fun p => if p.1 = k then (p.1, cd2) else p).lookup k
        = some cd2 := by
  intro l
  induction l with
  | nil =>
    intro cd0 h
    simp [List.lookup] at h
  | cons a t ih =>
    intro cd0 h
    by_cases hk : a.1 = k
    · simp only [List.map_cons, if_pos hk, hk]
      simp [List.lookup]
    · simp only [List.map_cons, if_neg hk]
      simp only [List.lookup] at h ⊢
      have hbeq : (k == a.1) = false := by
        simp only [beq_eq_false_iff_ne, ne_eq]
        exact fun hc => hk hc.symm
      rw [hbeq] at h
      simp only [hbeq]
      exact ih cd0 h

/-- A camera with empty aggregates. -/
def c5Camera : CameraData := CameraData.mk 5 (-1) (-1) 0 0

/-- A fresh recording (unset id) for camera 5 with sample-file uuid 42. -/
def c5Rec : Recording :=
  { cameraId := 5
    sampleFileUuid := 42
    startTime90k := 10
    endTime90k := 20
    localTime90k := 10
    sampleFileBytes := 100 }

/-- A database whose only reservation for uuid 42 is in the `kDeleting`
state. -/
def c5DbDeleting : MoonfireDatabase :=
  { reserved := [ReservedRow.mk 42 kDeleting]
    recordings := []
    camerasById := [(5, c5Camera)]
    nextRowid := 1 }

/-- Counterexample to the claim that `InsertRecording` deletes the
`writing` reservation (failing when none exists): the delete statement has
no condition on `state`, so with the uuid's only reservation in the
`deleting` state — no `writing` reservation at all — the insert still
succeeds and consumes that reservation. -/
theorem insertRecording_deleting_counterexample :
    (∀ x ∈ c5DbDeleting.reserved, ¬x.state = kWriting) ∧
      (c5DbDeleting.insertRecording c5Rec).2
        = Except.ok { c5Rec with id := 1 } ∧
      (c5DbDeleting.insertRecording c5Rec).1.reserved = [] :=
  ⟨by decide, rfl, rfl⟩

/-- **C5** (amended). For every database and recording: every failure
path returns the unchanged snapshot (databases and cached aggregates
alike); a recording whose end precedes its start is rejected; and a
successful insert requires exactly one reservation with the recording's
sample-file uuid — in any state, not merely `writing` as claimed — which
it deletes, appends the recording row (with the duration and camera taken
from the recording), assigns the fresh rowid as the id, and updates the
camera's cached `min_start_time_90k`, `max_end_time_90k`,
`total_duration_90k` and `total_sample_file_bytes`. -/
theorem insertRecording_spec (db : MoonfireDatabase) (r : Recording) :
    (∀ e, (db.insertRecording r).2 = Except.error e →
      (db.insertRecording r).1 = db) ∧
      (r.id = -1 → r.endTime90k < r.startTime90k →
        ∃ e, (db.insertRecording r).2 = Except.error e) ∧
      (∀ r2, (db.insertRecording r).2 = Except.ok r2 →
        (db.reserved.filter fun x =>
            decide (x.uuid = r.sampleFileUuid)).length = 1 ∧
          (db.insertRecording r).1.reserved
            = db.reserved.filter (fun x => decide (x.uuid ≠ r.sampleFileUuid)) ∧
          r2 = { r with id := db.nextRowid } ∧
          (∃ row : RecordingRow,
            (db.insertRecording r).1.recordings = db.recordings ++ [row] ∧
            row.cameraId = r.cameraId ∧ row.startTime90k = r.startTime90k ∧
            row.duration90k = r.endTime90k - r.startTime90k ∧
            row.sampleFileBytes = r.sampleFileBytes ∧
            row.sampleFileUuid = r.sampleFileUuid) ∧
          (∃ cd cd2 : CameraData,
            db.camerasById.lookup r.cameraId = some cd ∧
            (db.insertRecording r).1.camerasById.lookup r.cameraId
              = some cd2 ∧
            cd2.totalDuration90k
              = cd.totalDuration90k + (r.endTime90k - r.startTime90k) ∧
            cd2.totalSampleFileBytes
              = cd.totalSampleFileBytes + r.sampleFileBytes ∧
            cd2.minStartTime90k = (if cd.minStartTime90k = -1 ∨
                cd.minStartTime90k > r.startTime90k
              then r.startTime90k else cd.minStartTime90k) ∧
            cd2.maxEndTime90k = (if cd.maxEndTime90k = -1 ∨
                cd.maxEndTime90k < r.endTime90k
              then r.endTime90k else cd.maxEndTime90k))) := by
  unfold MoonfireDatabase.insertRecording
  by_cases h1 : r.id ≠ -1
  · rw [if_pos h1]
    exact ⟨fun e _ => rfl, fun hid _ => absurd hid h1,
      fun r2 hok => Except.noConfusion hok⟩
  · rw [if_neg h1]
    by_cases h2 : r.endTime90k < r.startTime90k
    · rw [if_pos h2]
      exact ⟨fun e _ => rfl, fun _ _ => ⟨_, rfl⟩,
        fun r2 hok => Except.noConfusion hok⟩
    · rw [if_neg h2]
      cases hlk : db.camerasById.lookup r.cameraId with
      | none =>
        exact ⟨fun e _ => rfl, fun _ hlt => absurd hlt h2,
          fun r2 hok => Except.noConfusion hok⟩
      | some cd =>
        dsimp only
        by_cases h4 : db.reserved.length -
            (db.reserved.filter fun x =>
              decide (x.uuid ≠ r.sampleFileUuid)).length ≠ 1
        · rw [if_pos h4]
          exact ⟨fun e _ => rfl, fun _ hlt => absurd hlt h2,
            fun r2 hok => Except.noConfusion hok⟩
        · rw [if_neg h4]
          refine ⟨fun e he => Except.noConfusion he,
            fun _ hlt => absurd hlt h2, fun r2 hok => ?_⟩
          have hr2 : r2 = { r with id := db.nextRowid } :=
            (Except.ok.inj hok).symm
          have hcount : (db.reserved.filter fun x =>
              decide (x.uuid = r.sampleFileUuid)).length = 1 := by
            have hsplit := length_filter_add_length_filter_not db.reserved
              (fun x => decide (x.uuid = r.sampleFileUuid))
            have hfn : (fun x : ReservedRow =>
                decide (x.uuid ≠ r.sampleFileUuid))
                = fun x => !decide (x.uuid = r.sampleFileUuid) := by
              funext x
              simp [decide_not]
            have hch := not_not.mp h4
            rw [hfn] at hch
            omega
          refine ⟨hcount, rfl, hr2,
            ⟨_, rfl, rfl, rfl, rfl, rfl, rfl⟩,
            ⟨cd, _, rfl,
              lookup_map_replace r.cameraId _ db.camerasById cd hlk,
              rfl, rfl, rfl, rfl⟩⟩

/-- A database whose reservation for uuid 42 is in the `kWriting`
state. -/
def c5DbWriting : MoonfireDatabase :=
  { reserved := [ReservedRow.mk 42 kWriting]
    recordings := []
    camerasById := [(5, c5Camera)]
    nextRowid := 1 }

/-- Witness for `insertRecording_spec`: on the concrete database above
the insert succeeds, and the theorem's success clause yields the
reservation count. -/
theorem insertRecording_spec_witness :
    (c5DbWriting.insertRecording c5Rec).2
        = Except.ok { c5Rec with id := 1 } ∧
      (c5DbWriting.reserved.filter fun x =>
        decide (x.uuid = c5Rec.sampleFileUuid)).length = 1 :=
  ⟨rfl,
    ((insertRecording_spec c5DbWriting c5Rec).2.2 { c5Rec with id := 1 }
      rfl).1⟩

end MoonfireNvr
